import Mathlib

/-!
Verification of a bottleneck-TSP repository.

The repository contains three Python modules solving the same minimax-path
("minimize the longest single jump") travelling-salesman variant:

* `BFSHomework.py` : `load_city_distances`, `bfs_tsp` — breadth-first search
  over partial tours using a FIFO queue;
* `Least_Cost__Uniform_cost__Search.py` : `TSPSolver.solve` — the same state
  space, with a min-priority queue keyed by the running bottleneck;
* `A_Search.py` : `TSPSolver.heuristic`, `TSPSolver.solve` — the same state
  space, with a min-priority queue keyed by an accumulated cost estimate.

This file embeds those functions shallowly.  Python dictionaries become
functions into `Option Int` (a missing key, i.e. a `KeyError`, is `none`);
a Python `IndexError`/`KeyError` during the search surfaces as the `crash`
outcome; the unbounded `while` loops take an explicit fuel parameter, with
`none` meaning "fuel exhausted" (termination with adequate fuel is proved
separately).  Paths are kept in Python order; `path[0]` is rendered as
`List.head?` and `path[-1]` as `List.getLast?` (every state the search ever
creates carries a nonempty path, so the `Option`-valued reading is exact on
all reachable states).
-/

namespace TSP

variable {α : Type} [LinearOrder α]

/-- `sys.maxsize` on a 64-bit CPython build, the initial value of
`min_max_jump` in all three modules. -/
def maxsize : Int := 9223372036854775807

/-! ### The distance dictionary

`load_city_distances` (identical in all three modules up to method syntax):

```python
distances = {}
for i, origin in enumerate(cities):
    for j, destination in enumerate(cities):
        distances[(origin, destination)] = distance_matrix[i][j]
return distances
```

The dictionary is modelled as a function `α × α → Option Int`, starting from
the empty dictionary `fun _ => none` and updated key by key; an out-of-range
`distance_matrix[i][j]` aborts the build (Python `IndexError`), which is the
only way the build can fail — note that the source performs no validation of
squareness or of the sign of the weights. -/

/-- One Python dictionary assignment `d[k] = v`. -/
def dictInsert (d : α × α → Option Int) (k : α × α) (v : Int) : α × α → Option Int :=
  fun k' => if k' = k then some v else d k'

/-- The inner `for j, destination in enumerate(cities)` loop of
`load_city_distances`, working on row `i` of the matrix. -/
def loadInner (row : List Int) (origin : α) :
    List (ℕ × α) → (α × α → Option Int) → Option (α × α → Option Int)
  | [], d => some d
  | (j, dest) :: rest, d =>
    match row[j]? with
    | none => none
    | some w => loadInner row origin rest (dictInsert d (origin, dest) w)

/-- The outer `for i, origin in enumerate(cities)` loop of
`load_city_distances`. -/
def loadOuter (cities : List α) (m : List (List Int)) :
    List (ℕ × α) → (α × α → Option Int) → Option (α × α → Option Int)
  | [], d => some d
  | (i, origin) :: rest, d =>
    match m[i]? with
    | none => none
    | some row =>
      match loadInner row origin cities.enum d with
      | none => none
      | some d' => loadOuter cities m rest d'

/-- `load_city_distances(cities, distance_matrix)` from the sources. -/
def load_city_distances (cities : List α) (m : List (List Int)) :
    Option (α × α → Option Int) :=
  loadOuter cities m cities.enum (fun _ => none)

/-- The distance dictionary has an entry for every ordered pair of cities
(the precondition under which the search loops perform no failing lookup). -/
def Total (d : α × α → Option Int) (cities : List α) : Prop :=
  ∀ a ∈ cities, ∀ b ∈ cities, (d (a, b)).isSome

/-- The bottleneck of a path: the maximum weight of a consecutive pair,
`0` for the empty and the singleton path. -/
def pathMax (d : α × α → Option Int) : List α → Int
  | [] => 0
  | [_] => 0
  | a :: b :: rest => max ((d (a, b)).getD 0) (pathMax d (b :: rest))

/-! ### A generic frontier loop

All three `solve` functions share the shape

```python
while frontier:
    state = <remove one state>          # popleft / heappop
    if <complete>:  <compare to best>; continue
    <push every successor>
return best_path, min_max_jump
```

which is captured by `genLoop` below, parameterised by the removal policy
`pick` and by the body `step` (goal test plus successor generation) of the
particular module. -/

/-- Result of processing one popped state: a raised exception, a complete
state compared against the best (Python `continue`), or a successor list. -/
inductive StepR (σ : Type) (α : Type) : Type
  | crash : StepR σ α
  | goal (p : List α) (v : Int) : StepR σ α
  | expand (l : List σ) : StepR σ α

/-- Outcome of one iteration of the `while frontier:` loop. -/
inductive LoopRes (σ : Type) (α : Type) : Type
  | done (b : Option (List α) × Int) : LoopRes σ α
  | crash : LoopRes σ α
  | next (fr : List σ) (b : Option (List α) × Int) : LoopRes σ α

/-- Outcome of a whole `solve` call: normal return, or a Python exception. -/
inductive RunRes (α : Type) : Type
  | ok (r : Option (List α) × Int) : RunRes α
  | crash : RunRes α

/-- One iteration of the shared loop: pop a state via `pick`; a goal state
updates the best record iff its value is strictly smaller (the
`if max_jump < min_max_jump:` update in all three modules); otherwise the
successors are pushed at the end of the frontier list. -/
def genStep1 (pick : List σ → Option (σ × List σ)) (step : σ → StepR σ α)
    (fr : List σ) (b : Option (List α) × Int) : LoopRes σ α :=
  match pick fr with
  | none => .done b
  | some (s, rest) =>
    match step s with
    | .crash => .crash
    | .goal p v => .next rest (if v < b.2 then (some p, v) else b)
    | .expand l => .next (rest ++ l) b

/-- The shared `while frontier:` loop, with explicit fuel. -/
def genLoop (pick : List σ → Option (σ × List σ)) (step : σ → StepR σ α) :
    Nat → List σ → Option (List α) × Int → Option (RunRes α)
  | 0, _, _ => none
  | fuel + 1, fr, b =>
    match genStep1 pick step fr b with
    | .done b' => some (.ok b')
    | .crash => some .crash
    | .next fr' b' => genLoop pick step fuel fr' b'

/-- The bottleneck values of the complete states popped by the loop, in pop
order (a proof artefact used to analyse the loop, not part of the source). -/
def genTrace (pick : List σ → Option (σ × List σ)) (step : σ → StepR σ α) :
    Nat → List σ → List Int
  | 0, _ => []
  | fuel + 1, fr =>
    match pick fr with
    | none => []
    | some (s, rest) =>
      match step s with
      | .crash => []
      | .goal _ v => v :: genTrace pick step fuel rest
      | .expand l => genTrace pick step fuel (rest ++ l)

/-- One configuration of the loop steps to the next one. -/
def GStep (pick : List σ → Option (σ × List σ)) (step : σ → StepR σ α)
    (c c' : List σ × (Option (List α) × Int)) : Prop :=
  genStep1 pick step c.1 c.2 = .next c'.1 c'.2

/-- A configuration is reachable during the run started at `c`. -/
def GReach (pick : List σ → Option (σ × List σ)) (step : σ → StepR σ α) :
    List σ × (Option (List α) × Int) → List σ × (Option (List α) × Int) → Prop :=
  Relation.ReflTransGen (GStep pick step)

/-! ### Removal policies

`collections.deque.popleft` removes the head.  `heapq.heappop` removes the
least entry in the lexicographic tuple order that Python uses to compare the
pushed tuples (first component, then the path as a list, then any further
component); when several pushed tuples are fully equal the popped value is
that same tuple, so removing the first minimal entry of the list is an exact
model. -/

/-- `popleft` of the BFS deque. -/
def bfs_pick {σ : Type} : List σ → Option (σ × List σ)
  | [] => none
  | x :: xs => some (x, xs)

/-- Python's `<` on lists (lexicographic, a strict prefix is smaller). -/
def listLtB : List α → List α → Bool
  | _, [] => false
  | [], _ :: _ => true
  | a :: as, b :: bs => if a < b then true else if b < a then false else listLtB as bs

/-- Python's `<` on the `(max_jump, path)` tuples pushed by the uniform-cost
module. -/
def ucsLtB (x y : Int × List α) : Bool :=
  if x.1 < y.1 then true else if y.1 < x.1 then false else listLtB x.2 y.2

/-- Python's `<` on the `(estimated_cost, path, max_jump)` tuples pushed by
the informed module. -/
def astarLtB (x y : Int × List α × Int) : Bool :=
  if x.1 < y.1 then true
  else if y.1 < x.1 then false
  else if listLtB x.2.1 y.2.1 then true
  else if listLtB y.2.1 x.2.1 then false
  else decide (x.2.2 < y.2.2)

/-- `heappop`: remove the first minimal element under `lt`. -/
def popMinBy (lt : σ → σ → Bool) : List σ → Option (σ × List σ)
  | [] => none
  | x :: xs =>
    match popMinBy lt xs with
    | none => some (x, [])
    | some (m, rest) => if lt m x then some (m, x :: rest) else some (x, xs)

/-! ### The breadth-first module (`BFSHomework.py`)

```python
queue = deque([(cities[0], [cities[0]], 0)])
while queue:
    current_city, path, max_jump = queue.popleft()
    if len(path) == len(cities) + 1 and path[-1] == path[0]:
        if max_jump < min_max_jump: best_path = path; min_max_jump = max_jump
        continue
    for next_city in cities:
        if next_city not in path or (next_city == path[0] and len(set(path)) == len(cities)):
            new_path = path + [next_city]
            new_jump = distances[(current_city, next_city)]
            new_max_jump = max(max_jump, new_jump)
            if not (next_city == path[0] and len(set(path)) < len(cities)):
                queue.append((next_city, new_path, new_max_jump))
return best_path, min_max_jump
```

`len(set(path))` is the number of distinct entries, i.e. `path.dedup.length`.
-/

/-- The `for next_city in cities` successor loop of `bfs_tsp`; `none` models
a `KeyError` on a distance lookup. -/
def bfs_expand (cities : List α) (d : α × α → Option Int) (c : α) (path : List α)
    (mj : Int) : List α → Option (List (α × List α × Int))
  | [] => some []
  | next :: more =>
    if next ∉ path ∨ (path.head? = some next ∧ path.dedup.length = cities.length) then
      match d (c, next) with
      | none => none
      | some w =>
        if ¬(path.head? = some next ∧ path.dedup.length < cities.length) then
          (bfs_expand cities d c path mj more).map
            (fun l => (next, path ++ [next], max mj w) :: l)
        else bfs_expand cities d c path mj more
    else bfs_expand cities d c path mj more

/-- The body of one `bfs_tsp` loop iteration on the popped
`(current_city, path, max_jump)`. -/
def bfs_step (cities : List α) (d : α × α → Option Int) :
    α × List α × Int → StepR (α × List α × Int) α
  | (c, path, mj) =>
    if path.length = cities.length + 1 ∧ path.getLast? = path.head? then .goal path mj
    else
      match bfs_expand cities d c path mj cities with
      | none => .crash
      | some l => .expand l

/-- `bfs_tsp(cities, distances)`; `some .crash` for the `IndexError` raised
by `cities[0]` on an empty city list. -/
def bfs_tsp (cities : List α) (d : α × α → Option Int) (fuel : Nat) :
    Option (RunRes α) :=
  match cities.head? with
  | none => some .crash
  | some c0 =>
    genLoop bfs_pick (bfs_step cities d) fuel [(c0, [c0], 0)] (none, maxsize)

/-! ### The uniform-cost module (`Least_Cost__Uniform_cost__Search.py`)

```python
heappush(frontier, (0, [self.cities[0]]))
while frontier:
    max_jump, path = heappop(frontier)
    current_city = path[-1]
    if len(path) > 1 and path[-1] == self.cities[0]:
        if len(set(path[:-1])) == len(self.cities):
            if max_jump < min_max_jump: best_path = path; min_max_jump = max_jump
            continue
    for next_city in self.cities:
        if next_city not in path or (next_city == self.cities[0] and len(set(path)) == len(self.cities)):
            ...
            if not (next_city == self.cities[0] and len(set(path)) < len(self.cities)):
                heappush(frontier, (new_max_jump, new_path))
return best_path, min_max_jump
```

Note the `continue` sits inside the inner `if`: a popped state falls through
to expansion unless all three conditions hold, so the goal branch is taken
exactly under their conjunction. -/

/-- The successor loop of the uniform-cost `solve` (the candidate test uses
`self.cities[0]` where `bfs_tsp` used `path[0]`). -/
def ucs_expand (cities : List α) (d : α × α → Option Int) (c : α) (path : List α)
    (mj : Int) : List α → Option (List (Int × List α))
  | [] => some []
  | next :: more =>
    if next ∉ path ∨ (cities.head? = some next ∧ path.dedup.length = cities.length) then
      match d (c, next) with
      | none => none
      | some w =>
        if ¬(cities.head? = some next ∧ path.dedup.length < cities.length) then
          (ucs_expand cities d c path mj more).map
            (fun l => (max mj w, path ++ [next]) :: l)
        else ucs_expand cities d c path mj more
    else ucs_expand cities d c path mj more

/-- The body of one uniform-cost loop iteration on the popped
`(max_jump, path)`; `current_city = path[-1]` is read before the goal test. -/
def ucs_step (cities : List α) (d : α × α → Option Int) :
    Int × List α → StepR (Int × List α) α
  | (mj, path) =>
    match path.getLast? with
    | none => .crash
    | some c =>
      if 1 < path.length ∧ path.getLast? = cities.head? ∧
          path.dropLast.dedup.length = cities.length then .goal path mj
      else
        match ucs_expand cities d c path mj cities with
        | none => .crash
        | some l => .expand l

/-- The uniform-cost `TSPSolver.solve`. -/
def ucs_tsp (cities : List α) (d : α × α → Option Int) (fuel : Nat) :
    Option (RunRes α) :=
  match cities.head? with
  | none => some .crash
  | some c0 =>
    genLoop (popMinBy ucsLtB) (ucs_step cities d) fuel [(0, [c0])] (none, maxsize)

/-! ### The informed module (`A_Search.py`)

```python
heapq.heappush(open_set, (0, [self.cities[0]], 0))
while open_set:
    cost, path, max_jump = heapq.heappop(open_set)
    current_city = path[-1]
    if len(path) == len(self.cities) + 1 and path[-1] == path[0]:
        ...; continue
    remaining_cities = [city for city in self.cities
                        if city not in path or (city == path[0] and len(set(path)) == len(self.cities))]
    for next_city in remaining_cities:
        new_jump = self.distances[(current_city, next_city)]
        new_max_jump = max(max_jump, new_jump)
        estimated_cost = cost + new_jump + self.heuristic(remaining_cities, next_city)
        heapq.heappush(open_set, (estimated_cost, new_path, new_max_jump))
```
-/

/-- The candidate list computed by the informed module's comprehension
`remaining_cities = [city for city in self.cities if ...]` (the same
condition the other two modules test one candidate at a time). -/
def cand (cities : List α) (path : List α) : List α :=
  cities.filter fun c =>
    decide (c ∉ path ∨ (path.head? = some c ∧ path.dedup.length = cities.length))

/-- Python's `min(lst, default=0)`. -/
def minList : List Int → Int
  | [] => 0
  | x :: xs => xs.foldl min x

/-- The list comprehension
`[self.distances[(current_city, city)] for city in remaining_cities if city != current_city]`:
the lookups are performed left to right, and a missing key (`none`) raises. -/
def lookupAll (d : α × α → Option Int) (cur : α) : List α → Option (List Int)
  | [] => some []
  | c :: rest =>
    match d (cur, c) with
    | none => none
    | some w => (lookupAll d cur rest).map (fun ws => w :: ws)

/-- `TSPSolver.heuristic(remaining_cities, current_city)`:

```python
min([self.distances[(current_city, city)] for city in remaining_cities if city != current_city],
    default=0)
```

`none` models a `KeyError` inside the comprehension. -/
def heuristicM (d : α × α → Option Int) (remaining : List α) (cur : α) : Option Int :=
  match lookupAll d cur (remaining.filter fun c => decide (c ≠ cur)) with
  | none => none
  | some ws => some (minList ws)

/-- The `for next_city in remaining_cities` successor loop of the informed
`solve`.  `cost` is the popped state's own priority key. -/
def astar_expand (cities : List α) (d : α × α → Option Int) (cost : Int) (c : α)
    (path : List α) (mj : Int) (remaining : List α) :
    List α → Option (List (Int × List α × Int))
  | [] => some []
  | next :: more =>
    match d (c, next) with
    | none => none
    | some w =>
      match heuristicM d remaining next with
      | none => none
      | some h =>
        (astar_expand cities d cost c path mj remaining more).map
          (fun l => (cost + w + h, path ++ [next], max mj w) :: l)

/-- The body of one informed loop iteration on the popped
`(cost, path, max_jump)`. -/
def astar_step (cities : List α) (d : α × α → Option Int) :
    Int × List α × Int → StepR (Int × List α × Int) α
  | (cost, path, mj) =>
    match path.getLast? with
    | none => .crash
    | some c =>
      if path.length = cities.length + 1 ∧ path.getLast? = path.head? then .goal path mj
      else
        match astar_expand cities d cost c path mj (cand cities path) (cand cities path) with
        | none => .crash
        | some l => .expand l

/-- The informed `TSPSolver.solve`. -/
def astar_tsp (cities : List α) (d : α × α → Option Int) (fuel : Nat) :
    Option (RunRes α) :=
  match cities.head? with
  | none => some .crash
  | some c0 =>
    genLoop (popMinBy astarLtB) (astar_step cities d) fuel [(0, [c0], 0)] (none, maxsize)

/-! ### Shared path-level invariants -/

/-- A closed reachable path: a duplicate-free segment of full length followed
by the return to the start city. -/
def Closed (cities : List α) (path : List α) : Prop :=
  ∃ q c0, path = q ++ [c0] ∧ q.Nodup ∧ cities.head? = some c0 ∧
    q.length = cities.length

/-- The invariant carried by every path the three searches ever enqueue. -/
structure WfPath (cities : List α) (d : α × α → Option Int)
    (path : List α) (mj : Int) : Prop where
  ne : path ≠ []
  hd : path.head? = cities.head?
  sub : ∀ x ∈ path, x ∈ cities
  bn : mj = pathMax d path
  shape : path.Nodup ∨ Closed cities path

/-- The specification's goal test (§4.3): full length, a closing edge, and
the first `len(locations)` entries are the location set exactly once each
(multiset equality rendered as `List.Perm`). -/
def CompleteSpec (cities : List α) (path : List α) : Prop :=
  path.length = cities.length + 1 ∧ path.getLast? = path.head? ∧
    (path.take cities.length).Perm cities

/-- A complete Hamiltonian cycle over `cities` starting and ending at
`cities[0]`. -/
def IsTour (cities : List α) (T : List α) : Prop :=
  T.head? = cities.head? ∧ T.getLast? = T.head? ∧ T.dropLast.Perm cities

/-- The number of cities a path may still visit (the termination measure). -/
def stepsLeft (cities : List α) (path : List α) : Nat :=
  cities.length + 1 - path.length

theorem Closed.length_eq {cities path : List α} (h : Closed cities path) :
    path.length = cities.length + 1 := by
  obtain ⟨q, c0, rfl, -, -, hlen⟩ := h
  simp [hlen]

/-- A duplicate-free list contained in `cities` and at least as long is a
permutation of `cities`. -/
theorem perm_of_nodup_subset_length {q cities : List α} (hq : q.Nodup)
    (hsub : ∀ x ∈ q, x ∈ cities) (hlen : cities.length ≤ q.length) :
    q.Perm cities := by
  obtain ⟨l, hl, hsl⟩ := hq.subperm hsub
  have hll : l.length = cities.length := by
    have h1 := hsl.length_le
    have h2 : l.length = q.length := hl.length_eq
    omega
  have : l = cities := hsl.eq_of_length hll
  exact (this ▸ hl).symm

theorem wf_open_length {cities path : List α} {d : α × α → Option Int} {mj : Int}
    (h : WfPath cities d path mj) (hnd : path.Nodup) :
    path.length ≤ cities.length :=
  (hnd.subperm h.sub).length_le

theorem wf_not_closed_nodup {cities path : List α} {d : α × α → Option Int}
    {mj : Int} (h : WfPath cities d path mj) (hc : ¬ Closed cities path) :
    path.Nodup :=
  h.shape.resolve_right hc

/-- For a well-formed path the closing test used by the breadth-first and the
informed module (`len(path) == len(cities) + 1 and path[-1] == path[0]`)
recognises exactly the closed paths. -/
theorem closed_iff_lengthLast {cities path : List α} {d : α × α → Option Int}
    {mj : Int} (h : WfPath cities d path mj) :
    (path.length = cities.length + 1 ∧ path.getLast? = path.head?) ↔
      Closed cities path := by
  constructor
  · rintro ⟨hlen, -⟩
    rcases h.shape with hnd | hcl
    · have := wf_open_length h hnd
      omega
    · exact hcl
  · rintro hcl
    refine ⟨hcl.length_eq, ?_⟩
    obtain ⟨q, c0, rfl, -, hc0, -⟩ := hcl
    rw [List.getLast?_concat, h.hd, hc0]

/-- In a duplicate-free path of length at least two the last entry differs
from the first. -/
theorem nodup_head?_ne_getLast? {l : List α} (hnd : l.Nodup)
    (hl : 1 < l.length) : l.head? ≠ l.getLast? := by
  match l with
  | a :: b :: rest =>
    intro heq
    have hne : (b :: rest : List α) ≠ [] := by simp
    have hlast : (a :: b :: rest).getLast? = (b :: rest).getLast? :=
      List.getLast?_cons_cons ..
    rw [hlast, List.getLast?_eq_getLast _ hne, List.head?_cons] at heq
    have hmem : (b :: rest).getLast hne ∈ b :: rest := List.getLast_mem hne
    rw [← Option.some_inj.mp heq] at hmem
    exact (List.nodup_cons.mp hnd).1 hmem

/-- For a well-formed path the closing test used by the uniform-cost module
(`len(path) > 1 and path[-1] == self.cities[0]` plus
`len(set(path[:-1])) == len(self.cities)`) also recognises exactly the
closed paths. -/
theorem closed_iff_ucsTest {cities path : List α} {d : α × α → Option Int}
    {mj : Int} (h : WfPath cities d path mj) :
    (1 < path.length ∧ path.getLast? = cities.head? ∧
        path.dropLast.dedup.length = cities.length) ↔ Closed cities path := by
  constructor
  · rintro ⟨hlen, hlast, -⟩
    rcases h.shape with hnd | hcl
    · exact absurd (h.hd.trans hlast.symm) (nodup_head?_ne_getLast? hnd hlen)
    · exact hcl
  · rintro ⟨q, c0, rfl, hqnd, hc0, hqlen⟩
    have hne : cities ≠ [] := by
      intro hc; rw [hc] at hc0; simp at hc0
    refine ⟨?_, ?_, ?_⟩
    · have : 1 ≤ cities.length := List.length_pos.mpr hne
      simp [hqlen]; omega
    · rw [List.getLast?_concat, hc0]
    · rw [List.dropLast_concat, hqnd.dedup, hqlen]

/-- For a well-formed path, being closed is exactly the specification's goal
test. -/
theorem closed_iff_completeSpec {cities path : List α} {d : α × α → Option Int}
    {mj : Int} (h : WfPath cities d path mj) :
    Closed cities path ↔ CompleteSpec cities path := by
  constructor
  · rintro hcl
    obtain ⟨hlen, hlast⟩ := (closed_iff_lengthLast h).mpr hcl
    refine ⟨hlen, hlast, ?_⟩
    obtain ⟨q, c0, rfl, hqnd, hc0, hqlen⟩ := hcl
    have hqsub : ∀ x ∈ q, x ∈ cities := fun x hx =>
      h.sub x (List.mem_append.mpr (Or.inl hx))
    have hperm : q.Perm cities :=
      perm_of_nodup_subset_length hqnd hqsub (le_of_eq hqlen.symm)
    rw [← hqlen, List.take_left]
    exact hperm
  · rintro ⟨hlen, hlast, -⟩
    exact (closed_iff_lengthLast h).mp ⟨hlen, hlast⟩

/-- A closed well-formed path is a tour. -/
theorem closed_isTour {cities path : List α} {d : α × α → Option Int}
    {mj : Int} (h : WfPath cities d path mj) (hcl : Closed cities path) :
    IsTour cities path := by
  obtain ⟨hlen, hlast⟩ := (closed_iff_lengthLast h).mpr hcl
  obtain ⟨q, c0, rfl, hqnd, hc0, hqlen⟩ := hcl
  refine ⟨h.hd, hlast, ?_⟩
  rw [List.dropLast_concat]
  exact perm_of_nodup_subset_length hqnd
    (fun x hx => h.sub x (List.mem_append.mpr (Or.inl hx)))
    (le_of_eq hqlen.symm)

theorem isTour_ne_nil {cities T : List α} (hcne : cities ≠ [])
    (hT : IsTour cities T) : T ≠ [] := by
  obtain ⟨-, -, hperm⟩ := hT
  intro hc
  rw [hc] at hperm
  exact hcne (List.Perm.eq_nil hperm.symm)

/-- A tour is closed (this direction needs `cities` duplicate-free to know
that the open segment repeats no city). -/
theorem isTour_closed {cities T : List α} (hn : cities.Nodup)
    (hcne : cities ≠ []) (hT : IsTour cities T) : Closed cities T := by
  have hTne : T ≠ [] := isTour_ne_nil hcne hT
  obtain ⟨hhd, hlast, hperm⟩ := hT
  refine ⟨T.dropLast, T.getLast hTne, ?_, ?_, ?_, ?_⟩
  · exact (List.dropLast_append_getLast hTne).symm
  · exact hperm.nodup_iff.mpr hn
  · rw [← hhd, ← hlast, List.getLast?_eq_getLast _ hTne]
  · exact hperm.length_eq

theorem isTour_length {cities T : List α} (hcne : cities ≠ [])
    (hT : IsTour cities T) : T.length = cities.length + 1 := by
  have hTne : T ≠ [] := isTour_ne_nil hcne hT
  obtain ⟨-, -, hperm⟩ := hT
  have h1 : T.dropLast.length = cities.length := hperm.length_eq
  have h2 : T.dropLast.length = T.length - 1 := List.length_dropLast T
  have h3 : 1 ≤ T.length := List.length_pos.mpr hTne
  omega

/-! ### Arithmetic of the running bottleneck -/

theorem pathMax_concat (d : α × α → Option Int) :
    ∀ (path : List α) (_ : path ≠ []) (a c : α)
      (_ : path.getLast? = some a),
      pathMax d (path ++ [c]) = max (pathMax d path) ((d (a, c)).getD 0)
  | [], h, _, _, _ => absurd rfl h
  | [x], _, a, c, hl => by
    simp only [List.getLast?_singleton, Option.some.injEq] at hl
    subst hl
    simp [pathMax, max_comm]
  | x :: y :: rest, _, a, c, hl => by
    have hl' : (y :: rest : List α).getLast? = some a := by
      rwa [List.getLast?_cons_cons] at hl
    have ih := pathMax_concat d (y :: rest) (by simp) a c hl'
    show max ((d (x, y)).getD 0) (pathMax d ((y :: rest) ++ [c]))
        = max (max ((d (x, y)).getD 0) (pathMax d (y :: rest))) ((d (a, c)).getD 0)
    rw [ih, max_assoc]

/-! ### Folding `min` over the popped goal values -/

theorem foldl_min_le_init (b : Int) : ∀ l : List Int, l.foldl min b ≤ b
  | [] => le_refl b
  | x :: xs => le_trans (foldl_min_le_init (min b x) xs) (min_le_left b x)

theorem foldl_min_le_mem {x : Int} :
    ∀ {l : List Int}, x ∈ l → ∀ b, l.foldl min b ≤ x := by
  intro l hx
  induction l with
  | nil => cases hx
  | cons y ys ih =>
    intro b
    rcases List.mem_cons.mp hx with rfl | hmem
    · exact le_trans (foldl_min_le_init _ ys) (min_le_right b x)
    · exact ih hmem (min b y)

theorem foldl_min_cases : ∀ (l : List Int) (b : Int),
    l.foldl min b = b ∨ l.foldl min b ∈ l
  | [], _ => Or.inl rfl
  | x :: xs, b => by
    rcases foldl_min_cases xs (min b x) with h | h
    · rcases min_choice b x with hm | hm
      · exact Or.inl (by rw [List.foldl_cons, h, hm])
      · exact Or.inr (by rw [List.foldl_cons, h, hm]; exact List.mem_cons_self x xs)
    · exact Or.inr (List.mem_cons_of_mem x h)

theorem foldl_min_perm {l₁ l₂ : List Int} (h : l₁.Perm l₂) :
    ∀ b, l₁.foldl min b = l₂.foldl min b := by
  induction h with
  | nil => intro b; rfl
  | cons x _ ih => intro b; simpa using ih (min b x)
  | swap x y l =>
    intro b
    simp only [List.foldl_cons]
    have : min (min b y) x = min (min b x) y := by
      rw [min_assoc, min_assoc, min_comm y x]
    rw [this]
  | trans _ _ ih₁ ih₂ => intro b; rw [ih₁ b, ih₂ b]

theorem foldl_min_of_le : ∀ {l : List Int} {b : Int},
    (∀ x ∈ l, b ≤ x) → l.foldl min b = b := by
  intro l
  induction l with
  | nil => intro b _; rfl
  | cons x xs ih =>
    intro b h
    rw [List.foldl_cons, min_eq_left (h x (List.mem_cons_self x xs))]
    exact ih fun y hy => h y (List.mem_cons_of_mem x hy)

theorem ite_lt_eq_min (v x : Int) : (if v < x then v else x) = min x v := by
  rcases lt_or_le v x with h | h
  · rw [if_pos h, min_eq_right h.le]
  · rw [if_neg (not_lt.mpr h), min_eq_left h]

/-! ### Properties of the removal policies -/

theorem bfs_pick_none {σ : Type} {l : List σ} (h : bfs_pick l = none) : l = [] := by
  cases l with
  | nil => rfl
  | cons x xs => simp [bfs_pick] at h

theorem bfs_pick_perm {σ : Type} {l : List σ} {s : σ} {r : List σ}
    (h : bfs_pick l = some (s, r)) : l.Perm (s :: r) := by
  cases l with
  | nil => simp [bfs_pick] at h
  | cons x xs =>
    have hx : x = s ∧ xs = r := by simpa [bfs_pick, Prod.ext_iff] using h
    obtain ⟨rfl, rfl⟩ := hx
    exact List.Perm.refl _

theorem popMinBy_none {σ : Type} {lt : σ → σ → Bool} :
    ∀ {l : List σ}, popMinBy lt l = none → l = [] := by
  intro l h
  cases l with
  | nil => rfl
  | cons x xs =>
    rcases hx : popMinBy lt xs with _ | ⟨m, rest⟩
    · simp [popMinBy, hx] at h
    · simp only [popMinBy, hx] at h
      split at h <;> simp at h

theorem popMinBy_perm {σ : Type} {lt : σ → σ → Bool} :
    ∀ {l : List σ} {s : σ} {r : List σ},
      popMinBy lt l = some (s, r) → l.Perm (s :: r) := by
  intro l
  induction l with
  | nil => intro s r h; simp [popMinBy] at h
  | cons x xs ih =>
    intro s r h
    rcases hx : popMinBy lt xs with _ | ⟨m, rest⟩ <;>
      simp only [popMinBy, hx] at h
    · obtain ⟨rfl, rfl⟩ : x = s ∧ ([] : List σ) = r := by
        simpa [Prod.ext_iff] using h
      have hxs : xs = [] := popMinBy_none hx
      rw [hxs]
    · have hperm := ih hx
      split at h
      · obtain ⟨rfl, rfl⟩ : m = s ∧ x :: rest = r := by
          simpa [Prod.ext_iff] using h
        exact (hperm.cons x).trans (List.Perm.swap m x rest)
      · obtain ⟨rfl, rfl⟩ : x = s ∧ xs = r := by
          simpa [Prod.ext_iff] using h
        exact List.Perm.refl _

/-- The entry removed by `heappop` has the least key of the frontier,
provided the comparator respects the key in both directions. -/
theorem popMinBy_key_le {σ : Type} {lt : σ → σ → Bool} (key : σ → Int)
    (h1 : ∀ a b, lt a b = true → key a ≤ key b)
    (h2 : ∀ a b, lt a b = false → key b ≤ key a) :
    ∀ {l : List σ} {s : σ} {r : List σ},
      popMinBy lt l = some (s, r) → ∀ y ∈ l, key s ≤ key y := by
  intro l
  induction l with
  | nil => intro s r h; simp [popMinBy] at h
  | cons x xs ih =>
    intro s r h y hy
    rcases hx : popMinBy lt xs with _ | ⟨m, rest⟩ <;>
      simp only [popMinBy, hx] at h
    · obtain ⟨rfl, -⟩ : x = s ∧ ([] : List σ) = r := by
        simpa [Prod.ext_iff] using h
      have hxs : xs = [] := popMinBy_none hx
      subst hxs
      rcases List.mem_singleton.mp hy with rfl
      exact le_refl _
    · cases hlt : lt m x with
      | true =>
        rw [hlt] at h
        obtain ⟨rfl, -⟩ : m = s ∧ x :: rest = r := by
          simpa [Prod.ext_iff] using h
        rcases List.mem_cons.mp hy with rfl | hmem
        · exact h1 _ _ hlt
        · exact ih hx _ hmem
      | false =>
        rw [hlt] at h
        obtain ⟨rfl, -⟩ : x = s ∧ xs = r := by
          simpa [Prod.ext_iff] using h
        rcases List.mem_cons.mp hy with rfl | hmem
        · exact le_refl _
        · exact le_trans (h2 _ _ hlt) (ih hx _ hmem)

/-! ### Generic facts about the loop -/

theorem genLoop_done {σ : Type} {pick : List σ → Option (σ × List σ)}
    {step : σ → StepR σ α} {fr : List σ} {b b' : Option (List α) × Int}
    (f : Nat) (hgs : genStep1 pick step fr b = .done b') :
    genLoop pick step (f + 1) fr b = some (.ok b') := by
  simp only [genLoop]
  rw [hgs]

theorem genLoop_crash {σ : Type} {pick : List σ → Option (σ × List σ)}
    {step : σ → StepR σ α} {fr : List σ} {b : Option (List α) × Int}
    (f : Nat) (hgs : genStep1 pick step fr b = .crash) :
    genLoop pick step (f + 1) fr b = some .crash := by
  simp only [genLoop]
  rw [hgs]

theorem genLoop_next {σ : Type} {pick : List σ → Option (σ × List σ)}
    {step : σ → StepR σ α} {fr fr' : List σ} {b b' : Option (List α) × Int}
    (f : Nat) (hgs : genStep1 pick step fr b = .next fr' b') :
    genLoop pick step (f + 1) fr b = genLoop pick step f fr' b' := by
  simp only [genLoop]
  rw [hgs]

theorem genStep1_none {σ : Type} {pick : List σ → Option (σ × List σ)}
    {step : σ → StepR σ α} {fr : List σ} {b : Option (List α) × Int}
    (hp : pick fr = none) : genStep1 pick step fr b = .done b := by
  simp only [genStep1]
  rw [hp]

theorem genStep1_some {σ : Type} {pick : List σ → Option (σ × List σ)}
    {step : σ → StepR σ α} {fr rest : List σ} {s : σ} {b : Option (List α) × Int}
    (hp : pick fr = some (s, rest)) :
    genStep1 pick step fr b
      = match step s with
        | .crash => .crash
        | .goal p v => .next rest (if v < b.2 then (some p, v) else b)
        | .expand l => .next (rest ++ l) b := by
  simp only [genStep1]
  rw [hp]

theorem genTrace_none {σ : Type} {pick : List σ → Option (σ × List σ)}
    {step : σ → StepR σ α} {fr : List σ} (f : Nat) (hp : pick fr = none) :
    genTrace pick step (f + 1) fr = [] := by
  simp only [genTrace]
  rw [hp]

theorem genTrace_some {σ : Type} {pick : List σ → Option (σ × List σ)}
    {step : σ → StepR σ α} {fr rest : List σ} {s : σ}
    (f : Nat) (hp : pick fr = some (s, rest)) :
    genTrace pick step (f + 1) fr
      = match step s with
        | .crash => []
        | .goal _ v => v :: genTrace pick step f rest
        | .expand l => genTrace pick step f (rest ++ l) := by
  simp only [genTrace]
  rw [hp]

theorem genTrace_goal {σ : Type} {pick : List σ → Option (σ × List σ)}
    {step : σ → StepR σ α} {fr rest : List σ} {s : σ} {p : List α} {v : Int}
    (f : Nat) (hp : pick fr = some (s, rest)) (hs : step s = .goal p v) :
    genTrace pick step (f + 1) fr = v :: genTrace pick step f rest := by
  rw [genTrace_some f hp, hs]

theorem genTrace_expand {σ : Type} {pick : List σ → Option (σ × List σ)}
    {step : σ → StepR σ α} {fr rest : List σ} {s : σ} {l : List σ}
    (f : Nat) (hp : pick fr = some (s, rest)) (hs : step s = .expand l) :
    genTrace pick step (f + 1) fr = genTrace pick step f (rest ++ l) := by
  rw [genTrace_some f hp, hs]

theorem genLoop_mono {σ : Type} {pick : List σ → Option (σ × List σ)}
    {step : σ → StepR σ α} :
    ∀ {fuel fuel' : Nat} {fr : List σ} {b : Option (List α) × Int} {res},
      genLoop pick step fuel fr b = some res → fuel ≤ fuel' →
      genLoop pick step fuel' fr b = some res := by
  intro fuel
  induction fuel with
  | zero => intro fuel' fr b res h; simp [genLoop] at h
  | succ f ih =>
    intro fuel' fr b res h hle
    cases fuel' with
    | zero => exact (Nat.not_succ_le_zero f hle).elim
    | succ f' =>
      rcases hgs : genStep1 pick step fr b with b' | _ | ⟨fr', b'⟩
      · rw [genLoop_done f hgs] at h
        rw [genLoop_done f' hgs]
        exact h
      · rw [genLoop_crash f hgs] at h
        rw [genLoop_crash f' hgs]
        exact h
      · rw [genLoop_next f hgs] at h
        rw [genLoop_next f' hgs]
        exact ih h (by omega)

/-- The multiset of goal bottlenecks found below a state, computed to depth
`k` (`gvF (stepsLeft cities path + 1)` is exact on well-formed states). -/
def gvF (step : σ → StepR σ α) : Nat → σ → List Int
  | 0, _ => []
  | k + 1, s =>
    match step s with
    | .crash => []
    | .goal _ v => [v]
    | .expand l => l.flatMap (gvF step k)

theorem gvF_crash {σ : Type} {step : σ → StepR σ α} {s : σ} (k : Nat)
    (hs : step s = .crash) : gvF step (k + 1) s = [] := by
  simp only [gvF]
  rw [hs]

theorem gvF_of_goal {σ : Type} {step : σ → StepR σ α} {s : σ} {p : List α}
    {v : Int} (k : Nat) (hs : step s = .goal p v) : gvF step (k + 1) s = [v] := by
  simp only [gvF]
  rw [hs]

theorem gvF_of_expand {σ : Type} {step : σ → StepR σ α} {s : σ} {l : List σ}
    (k : Nat) (hs : step s = .expand l) :
    gvF step (k + 1) s = l.flatMap (gvF step k) := by
  simp only [gvF]
  rw [hs]

/-! ### A common abstraction of the three modules

`Alg` packages what the exhaustiveness, termination and invariance proofs
need to know about one of the three `solve` bodies: each popped state carries
a well-formed path and its running bottleneck, the goal branch is taken
exactly on closed paths, and expansion produces exactly the extensions of
the path by the common candidate list `cand`. -/

structure Alg (cities : List α) (d : α × α → Option Int) (σ : Type) where
  step : σ → StepR σ α
  pathOf : σ → List α
  mjOf : σ → Int
  W : σ → Prop
  hW : ∀ s, W s → WfPath cities d (pathOf s) (mjOf s)
  hgoal : ∀ s, W s → Closed cities (pathOf s) → step s = .goal (pathOf s) (mjOf s)
  hgoal_inv : ∀ s p v, W s → step s = .goal p v →
    Closed cities (pathOf s) ∧ p = pathOf s ∧ v = mjOf s
  hexp : ∀ s l, W s → step s = .expand l →
    ¬ Closed cities (pathOf s) ∧
    l.map pathOf = (cand cities (pathOf s)).map (fun c => pathOf s ++ [c]) ∧
    ∀ t ∈ l, W t

theorem Alg.succ_path {cities : List α} {d : α × α → Option Int} {σ : Type}
    (A : Alg cities d σ) {s : σ} {l : List σ} {t : σ}
    (hWs : A.W s) (hstep : A.step s = .expand l) (ht : t ∈ l) :
    ∃ c ∈ cand cities (A.pathOf s), A.pathOf t = A.pathOf s ++ [c] := by
  obtain ⟨-, hmap, -⟩ := A.hexp s l hWs hstep
  have hmem : A.pathOf t ∈ l.map A.pathOf := List.mem_map_of_mem _ ht
  rw [hmap] at hmem
  obtain ⟨c, hc, heq⟩ := List.mem_map.mp hmem
  exact ⟨c, hc, heq.symm⟩

theorem Alg.exp_len_le {cities : List α} {d : α × α → Option Int} {σ : Type}
    (A : Alg cities d σ) {s : σ} {l : List σ}
    (hWs : A.W s) (hstep : A.step s = .expand l) :
    (A.pathOf s).length ≤ cities.length :=
  wf_open_length (A.hW s hWs)
    (wf_not_closed_nodup (A.hW s hWs) (A.hexp s l hWs hstep).1)

theorem Alg.mu_succ {cities : List α} {d : α × α → Option Int} {σ : Type}
    (A : Alg cities d σ) {s : σ} {l : List σ} {t : σ}
    (hWs : A.W s) (hstep : A.step s = .expand l) (ht : t ∈ l) :
    stepsLeft cities (A.pathOf t) + 1 = stepsLeft cities (A.pathOf s) := by
  obtain ⟨c, -, hpath⟩ := A.succ_path hWs hstep ht
  have hlen : (A.pathOf t).length = (A.pathOf s).length + 1 := by
    rw [hpath]; simp
  have hle := A.exp_len_le hWs hstep
  unfold stepsLeft
  omega

theorem Alg.mu_pos {cities : List α} {d : α × α → Option Int} {σ : Type}
    (A : Alg cities d σ) {s : σ} {l : List σ}
    (hWs : A.W s) (hstep : A.step s = .expand l) :
    1 ≤ stepsLeft cities (A.pathOf s) := by
  have := A.exp_len_le hWs hstep
  unfold stepsLeft
  omega

theorem Alg.gvF_stable {cities : List α} {d : α × α → Option Int} {σ : Type}
    (A : Alg cities d σ) :
    ∀ (k : Nat) (s : σ), A.W s → stepsLeft cities (A.pathOf s) ≤ k →
      gvF A.step (k + 1) s
        = gvF A.step (stepsLeft cities (A.pathOf s) + 1) s := by
  intro k
  induction k using Nat.strong_induction_on with
  | _ k ih =>
    intro s hWs hk
    rcases hstep : A.step s with _ | ⟨p, v⟩ | l
    · rw [gvF_crash k hstep, gvF_crash _ hstep]
    · rw [gvF_of_goal k hstep, gvF_of_goal _ hstep]
    · rw [gvF_of_expand k hstep, gvF_of_expand _ hstep]
      refine List.flatMap_congr fun t ht => ?_
      have hWt : A.W t := (A.hexp s l hWs hstep).2.2 t ht
      have hmu := A.mu_succ hWs hstep ht
      have hpos := A.mu_pos hWs hstep
      obtain ⟨k', rfl⟩ : ∃ k', k = k' + 1 := ⟨k - 1, by omega⟩
      obtain ⟨m, hm⟩ : ∃ m, stepsLeft cities (A.pathOf s) = m + 1 :=
        ⟨stepsLeft cities (A.pathOf s) - 1, by omega⟩
      rw [hm]
      rw [ih k' (by omega) t hWt (by omega), ih m (by omega) t hWt (by omega)]

theorem Alg.gvF_goal {cities : List α} {d : α × α → Option Int} {σ : Type}
    (A : Alg cities d σ) {s : σ} {p : List α} {v : Int}
    (hstep : A.step s = .goal p v) :
    gvF A.step (stepsLeft cities (A.pathOf s) + 1) s = [v] :=
  gvF_of_goal _ hstep

theorem Alg.gvF_expand {cities : List α} {d : α × α → Option Int} {σ : Type}
    (A : Alg cities d σ) {s : σ} {l : List σ}
    (hWs : A.W s) (hstep : A.step s = .expand l) :
    gvF A.step (stepsLeft cities (A.pathOf s) + 1) s
      = l.flatMap fun t => gvF A.step (stepsLeft cities (A.pathOf t) + 1) t := by
  rw [gvF_of_expand _ hstep]
  refine List.flatMap_congr fun t ht => ?_
  have hWt : A.W t := (A.hexp s l hWs hstep).2.2 t ht
  have hmu := A.mu_succ hWs hstep ht
  have hpos := A.mu_pos hWs hstep
  obtain ⟨m, hm⟩ : ∃ m, stepsLeft cities (A.pathOf s) = m + 1 :=
    ⟨stepsLeft cities (A.pathOf s) - 1, by omega⟩
  rw [hm]
  rw [A.gvF_stable m t hWt (by omega)]

/-- One loop step preserves well-formedness of the whole frontier. -/
theorem Alg.pres {cities : List α} {d : α × α → Option Int} {σ : Type}
    (A : Alg cities d σ) {pick : List σ → Option (σ × List σ)}
    (hpick : ∀ (l : List σ) (s : σ) r, pick l = some (s, r) → l.Perm (s :: r))
    {c c' : List σ × (Option (List α) × Int)} (h : GStep pick A.step c c')
    (hall : ∀ s ∈ c.1, A.W s) : ∀ s ∈ c'.1, A.W s := by
  unfold GStep at h
  rcases hp : pick c.1 with _ | ⟨s, rest⟩
  · rw [genStep1_none hp] at h
    exact absurd h (by simp)
  · have hperm := hpick _ _ _ hp
    have hWs : A.W s := hall s (hperm.mem_iff.mpr (List.mem_cons_self ..))
    have hrest : ∀ t ∈ rest, A.W t := fun t ht =>
      hall t (hperm.mem_iff.mpr (List.mem_cons_of_mem _ ht))
    rw [genStep1_some hp] at h
    rcases hs : A.step s with _ | ⟨p, v⟩ | l <;> rw [hs] at h
    · have h' : LoopRes.crash (σ := σ) (α := α) = .next c'.1 c'.2 := h
      exact absurd h' (by simp)
    · have h' : LoopRes.next (α := α) rest
          (if v < c.2.2 then (some p, v) else c.2) = .next c'.1 c'.2 := h
      injection h' with h1 h2
      intro t ht
      rw [← h1] at ht
      exact hrest t ht
    · have h' : LoopRes.next (α := α) (rest ++ l) c.2 = .next c'.1 c'.2 := h
      injection h' with h1 h2
      intro t ht
      rw [← h1] at ht
      rcases List.mem_append.mp ht with htr | htl
      · exact hrest t htr
      · exact (A.hexp s l hWs hs).2.2 t htl

/-- Well-formedness of the frontier holds in every reachable configuration. -/
theorem Alg.reach_W {cities : List α} {d : α × α → Option Int} {σ : Type}
    (A : Alg cities d σ) {pick : List σ → Option (σ × List σ)}
    (hpick : ∀ (l : List σ) (s : σ) r, pick l = some (s, r) → l.Perm (s :: r))
    {c₀ c : List σ × (Option (List α) × Int)}
    (h : GReach pick A.step c₀ c) (hall : ∀ s ∈ c₀.1, A.W s) :
    ∀ s ∈ c.1, A.W s := by
  induction h with
  | refl => exact hall
  | tail _ hstep ih => exact A.pres hpick hstep ih

/-- Any property of the emitted goal records is carried to the returned
best record. -/
theorem Alg.best_inv {cities : List α} {d : α × α → Option Int} {σ : Type}
    (A : Alg cities d σ) {pick : List σ → Option (σ × List σ)}
    (P : List α → Int → Prop)
    (hgoalP : ∀ s p v, A.W s → A.step s = .goal p v → P p v)
    (hpick : ∀ (l : List σ) (s : σ) r, pick l = some (s, r) → l.Perm (s :: r)) :
    ∀ (fuel : Nat) (fr : List σ) (b : Option (List α) × Int) r,
      (∀ s ∈ fr, A.W s) → (∀ p, b.1 = some p → P p b.2) →
      genLoop pick A.step fuel fr b = some (.ok r) →
      ∀ p, r.1 = some p → P p r.2 := by
  intro fuel
  induction fuel with
  | zero => intro fr b r _ _ h; simp [genLoop] at h
  | succ f ih =>
    intro fr b r hall hb h
    rcases hp : pick fr with _ | ⟨s, rest⟩
    · have hgs : genStep1 pick A.step fr b = .done b := genStep1_none hp
      rw [genLoop_done f hgs] at h
      have hbr : RunRes.ok (α := α) b = .ok r := Option.some_inj.mp h
      injection hbr with hbr
      subst hbr
      exact hb
    · have hperm := hpick _ _ _ hp
      have hWs : A.W s := hall s (hperm.mem_iff.mpr (List.mem_cons_self ..))
      have hrest : ∀ t ∈ rest, A.W t := fun t ht =>
        hall t (hperm.mem_iff.mpr (List.mem_cons_of_mem _ ht))
      rcases hs : A.step s with _ | ⟨p, v⟩ | l
      · have hgs : genStep1 pick A.step fr b = .crash := by rw [genStep1_some hp, hs]
        rw [genLoop_crash f hgs] at h
        simp at h
      · have hgs : genStep1 pick A.step fr b
            = .next rest (if v < b.2 then (some p, v) else b) := by
          rw [genStep1_some hp, hs]
        rw [genLoop_next f hgs] at h
        refine ih rest _ r hrest ?_ h
        intro p' hp'
        by_cases hvb : v < b.2
        · rw [if_pos hvb] at hp' ⊢
          have hp'' : some p = some p' := hp'
          obtain rfl : p = p' := Option.some_inj.mp hp''
          exact hgoalP s p v hWs hs
        · rw [if_neg hvb] at hp' ⊢
          exact hb p' hp'
      · have hgs : genStep1 pick A.step fr b = .next (rest ++ l) b := by
          rw [genStep1_some hp, hs]
        rw [genLoop_next f hgs] at h
        refine ih (rest ++ l) b r ?_ hb h
        intro t ht
        rcases List.mem_append.mp ht with htr | htl
        · exact hrest t htr
        · exact (A.hexp s l hWs hs).2.2 t htl

/-- The returned bottleneck folds `min` over the popped goal values. -/
theorem genLoop_val {σ : Type} {pick : List σ → Option (σ × List σ)}
    {step : σ → StepR σ α} :
    ∀ (fuel : Nat) (fr : List σ) (b : Option (List α) × Int) r,
      genLoop pick step fuel fr b = some (.ok r) →
      r.2 = (genTrace pick step fuel fr).foldl min b.2 := by
  intro fuel
  induction fuel with
  | zero => intro fr b r h; simp [genLoop] at h
  | succ f ih =>
    intro fr b r h
    rcases hp : pick fr with _ | ⟨s, rest⟩
    · have hgs : genStep1 pick step fr b = .done b := genStep1_none hp
      rw [genLoop_done f hgs] at h
      have hbr : RunRes.ok (α := α) b = .ok r := Option.some_inj.mp h
      injection hbr with hbr
      subst hbr
      rw [genTrace_none f hp]
      rfl
    · rcases hs : step s with _ | ⟨p, v⟩ | l
      · have hgs : genStep1 pick step fr b = .crash := by rw [genStep1_some hp, hs]
        rw [genLoop_crash f hgs] at h
        simp at h
      · have hgs : genStep1 pick step fr b
            = .next rest (if v < b.2 then (some p, v) else b) := by
          rw [genStep1_some hp, hs]
        rw [genLoop_next f hgs] at h
        have hrec := ih rest _ r h
        have hsnd : ((if v < b.2 then ((some p : Option (List α)), v) else b)).2
            = min b.2 v := by
          split
          · exact (min_eq_right (le_of_lt (by assumption))).symm
          · exact (min_eq_left (le_of_not_lt (by assumption))).symm
        rw [genTrace_goal f hp hs, List.foldl_cons, hrec, hsnd]
      · have hgs : genStep1 pick step fr b = .next (rest ++ l) b := by
          rw [genStep1_some hp, hs]
        rw [genLoop_next f hgs] at h
        have hrec := ih (rest ++ l) b r h
        rw [genTrace_expand f hp hs]
        exact hrec

/-- Exhaustiveness: on a terminating run the popped goal values are, up to
order, exactly the goal values reachable below the frontier. -/
theorem Alg.trace_perm {cities : List α} {d : α × α → Option Int} {σ : Type}
    (A : Alg cities d σ) {pick : List σ → Option (σ × List σ)}
    (hpick : ∀ (l : List σ) (s : σ) r, pick l = some (s, r) → l.Perm (s :: r))
    (hpickN : ∀ l : List σ, pick l = none → l = []) :
    ∀ (fuel : Nat) (fr : List σ) (b : Option (List α) × Int) r,
      (∀ s ∈ fr, A.W s) →
      genLoop pick A.step fuel fr b = some (.ok r) →
      (genTrace pick A.step fuel fr).Perm
        (fr.flatMap fun s => gvF A.step (stepsLeft cities (A.pathOf s) + 1) s) := by
  intro fuel
  induction fuel with
  | zero => intro fr b r _ h; simp [genLoop] at h
  | succ f ih =>
    intro fr b r hall h
    rcases hp : pick fr with _ | ⟨s, rest⟩
    · rw [genTrace_none f hp, hpickN _ hp]
      simp
    · have hperm := hpick _ _ _ hp
      have hWs : A.W s := hall s (hperm.mem_iff.mpr (List.mem_cons_self ..))
      have hrest : ∀ t ∈ rest, A.W t := fun t ht =>
        hall t (hperm.mem_iff.mpr (List.mem_cons_of_mem _ ht))
      have hfr := List.Perm.flatMap_right
        (fun s => gvF A.step (stepsLeft cities (A.pathOf s) + 1) s) hperm
      rcases hs : A.step s with _ | ⟨p, v⟩ | l
      · have hgs : genStep1 pick A.step fr b = .crash := by rw [genStep1_some hp, hs]
        rw [genLoop_crash f hgs] at h
        simp at h
      · have hgs : genStep1 pick A.step fr b
            = .next rest (if v < b.2 then (some p, v) else b) := by
          rw [genStep1_some hp, hs]
        rw [genLoop_next f hgs] at h
        have htr := ih rest _ r hrest h
        have hg : gvF A.step (stepsLeft cities (A.pathOf s) + 1) s = [v] :=
          A.gvF_goal hs
        rw [genTrace_goal f hp hs]
        refine List.Perm.trans ?_ hfr.symm
        rw [List.flatMap_cons, hg]
        exact htr.cons v
      · have hgs : genStep1 pick A.step fr b = .next (rest ++ l) b := by
          rw [genStep1_some hp, hs]
        rw [genLoop_next f hgs] at h
        have hallNew : ∀ t ∈ rest ++ l, A.W t := by
          intro t ht
          rcases List.mem_append.mp ht with htr | htl
          · exact hrest t htr
          · exact (A.hexp s l hWs hs).2.2 t htl
        have htr := ih (rest ++ l) b r hallNew h
        rw [genTrace_expand f hp hs]
        refine List.Perm.trans ?_ hfr.symm
        rw [List.flatMap_cons, A.gvF_expand hWs hs]
        refine htr.trans ?_
        rw [List.flatMap_append]
        exact List.perm_append_comm

/-- The measure forcing termination: closed states never expand, open ones
spawn at most `len(cities)` successors, each one step closer to closing. -/
def Alg.M {cities : List α} {d : α × α → Option Int} {σ : Type}
    (A : Alg cities d σ) (fr : List σ) : Nat :=
  (fr.map fun s => (cities.length + 1) ^ stepsLeft cities (A.pathOf s)).sum

/-- With fuel exceeding the measure (and no failing lookup) the loop drains
its frontier and returns. -/
theorem Alg.term {cities : List α} {d : α × α → Option Int} {σ : Type}
    (A : Alg cities d σ) {pick : List σ → Option (σ × List σ)}
    (hpick : ∀ (l : List σ) (s : σ) r, pick l = some (s, r) → l.Perm (s :: r))
    (hcr : ∀ s, A.W s → A.step s ≠ .crash) :
    ∀ (fuel : Nat) (fr : List σ) (b : Option (List α) × Int),
      (∀ s ∈ fr, A.W s) → A.M fr < fuel →
      ∃ r, genLoop pick A.step fuel fr b = some (.ok r) := by
  intro fuel
  induction fuel with
  | zero => intro fr b _ hM; exact absurd hM (Nat.not_lt_zero _)
  | succ f ih =>
    intro fr b hall hM
    rcases hp : pick fr with _ | ⟨s, rest⟩
    · have hgs : genStep1 pick A.step fr b = .done b := genStep1_none hp
      exact ⟨b, genLoop_done f hgs⟩
    · have hperm := hpick _ _ _ hp
      have hWs : A.W s := hall s (hperm.mem_iff.mpr (List.mem_cons_self ..))
      have hrest : ∀ t ∈ rest, A.W t := fun t ht =>
        hall t (hperm.mem_iff.mpr (List.mem_cons_of_mem _ ht))
      have hMfr : A.M fr
          = (cities.length + 1) ^ stepsLeft cities (A.pathOf s) + A.M rest := by
        unfold Alg.M
        rw [List.Perm.sum_eq (hperm.map _)]
        simp
      have hpow1 : 1 ≤ (cities.length + 1) ^ stepsLeft cities (A.pathOf s) :=
        Nat.one_le_pow _ _ (by omega)
      rcases hs : A.step s with _ | ⟨p, v⟩ | l
      · exact absurd hs (hcr s hWs)
      · obtain ⟨r, hr⟩ := ih rest (if v < b.2 then (some p, v) else b) hrest
          (by omega)
        refine ⟨r, ?_⟩
        have hgs : genStep1 pick A.step fr b
            = .next rest (if v < b.2 then (some p, v) else b) := by
          rw [genStep1_some hp, hs]
        rw [genLoop_next f hgs]
        exact hr
      · have hallNew : ∀ t ∈ rest ++ l, A.W t := by
          intro t ht
          rcases List.mem_append.mp ht with htr | htl
          · exact hrest t htr
          · exact (A.hexp s l hWs hs).2.2 t htl
        have hlle : l.length ≤ cities.length := by
          obtain ⟨-, hmap, -⟩ := A.hexp s l hWs hs
          have h1 : l.length = (cand cities (A.pathOf s)).length := by
            have := congrArg List.length hmap
            simpa using this
          have h2 : (cand cities (A.pathOf s)).length ≤ cities.length :=
            List.length_filter_le _ _
          omega
        have hpos := A.mu_pos hWs hs
        obtain ⟨m, hm⟩ : ∃ m, stepsLeft cities (A.pathOf s) = m + 1 :=
          ⟨stepsLeft cities (A.pathOf s) - 1, by omega⟩
        have hMl : A.M l
            < (cities.length + 1) ^ stepsLeft cities (A.pathOf s) := by
          unfold Alg.M
          have hbound : ∀ x ∈ (l.map fun t =>
              (cities.length + 1) ^ stepsLeft cities (A.pathOf t)),
              x ≤ (cities.length + 1) ^ m := by
            intro x hx
            obtain ⟨t, ht, rfl⟩ := List.mem_map.mp hx
            have := A.mu_succ hWs hs ht
            have hmu : stepsLeft cities (A.pathOf t) = m := by omega
            rw [hmu]
          have hsum := List.sum_le_card_nsmul _ _ hbound
          simp only [List.length_map, smul_eq_mul] at hsum
          have hlt : l.length * (cities.length + 1) ^ m
              < (cities.length + 1) ^ (m + 1) := by
            have hpp : 0 < (cities.length + 1) ^ m := Nat.pos_pow_of_pos _ (by omega)
            calc l.length * (cities.length + 1) ^ m
                ≤ cities.length * (cities.length + 1) ^ m :=
                  Nat.mul_le_mul_right _ hlle
              _ < (cities.length + 1) * (cities.length + 1) ^ m :=
                  (Nat.mul_lt_mul_right hpp).mpr (by omega)
              _ = (cities.length + 1) ^ (m + 1) := by ring
          rw [hm]
          omega
        have hMapp : A.M (rest ++ l) = A.M rest + A.M l := by
          unfold Alg.M
          rw [List.map_append, List.sum_append]
        have hMnew : A.M (rest ++ l) < A.M fr := by
          rw [hMapp, hMfr]
          omega
        obtain ⟨r, hr⟩ := ih (rest ++ l) b hallNew (by omega)
        refine ⟨r, ?_⟩
        have hgs : genStep1 pick A.step fr b = .next (rest ++ l) b := by
          rw [genStep1_some hp, hs]
        rw [genLoop_next f hgs]
        exact hr

/-- Under a complete dictionary a loop on a well-formed frontier never
raises. -/
theorem Alg.no_crash {cities : List α} {d : α × α → Option Int} {σ : Type}
    (A : Alg cities d σ) {pick : List σ → Option (σ × List σ)}
    (hpick : ∀ (l : List σ) (s : σ) r, pick l = some (s, r) → l.Perm (s :: r))
    (hcr : ∀ s, A.W s → A.step s ≠ .crash) :
    ∀ (fuel : Nat) (fr : List σ) (b : Option (List α) × Int),
      (∀ s ∈ fr, A.W s) →
      genLoop pick A.step fuel fr b ≠ some .crash := by
  intro fuel
  induction fuel with
  | zero => intro fr b _; simp [genLoop]
  | succ f ih =>
    intro fr b hall
    rcases hp : pick fr with _ | ⟨s, rest⟩
    · have hgs : genStep1 pick A.step fr b = .done b := genStep1_none hp
      rw [genLoop_done f hgs]
      simp
    · have hperm := hpick _ _ _ hp
      have hWs : A.W s := hall s (hperm.mem_iff.mpr (List.mem_cons_self ..))
      have hrest : ∀ t ∈ rest, A.W t := fun t ht =>
        hall t (hperm.mem_iff.mpr (List.mem_cons_of_mem _ ht))
      rcases hs : A.step s with _ | ⟨p, v⟩ | l
      · exact absurd hs (hcr s hWs)
      · have hgs : genStep1 pick A.step fr b
            = .next rest (if v < b.2 then (some p, v) else b) := by
          rw [genStep1_some hp, hs]
        rw [genLoop_next f hgs]
        exact ih rest _ hrest
      · have hgs : genStep1 pick A.step fr b = .next (rest ++ l) b := by
          rw [genStep1_some hp, hs]
        rw [genLoop_next f hgs]
        refine ih (rest ++ l) b ?_
        intro t ht
        rcases List.mem_append.mp ht with htr | htl
        · exact hrest t htr
        · exact (A.hexp s l hWs hs).2.2 t htl

/-! ### Extending a well-formed path by one candidate -/

theorem wfpath_extend {cities path : List α} {d : α × α → Option Int} {mj : Int}
    {c next : α} (h : WfPath cities d path mj) (hlast : path.getLast? = some c)
    (hnc : next ∈ cities)
    (hcond : next ∉ path ∨
      (path.head? = some next ∧ path.dedup.length = cities.length))
    (hncl : ¬ Closed cities path) :
    WfPath cities d (path ++ [next]) (max mj ((d (c, next)).getD 0)) := by
  have hopen : path.Nodup := wf_not_closed_nodup h hncl
  refine ⟨by simp, ?_, ?_, ?_, ?_⟩
  · cases path with
    | nil => exact absurd rfl h.ne
    | cons a as => simpa using h.hd
  · intro x hx
    rcases List.mem_append.mp hx with hx | hx
    · exact h.sub x hx
    · rw [List.mem_singleton.mp hx]
      exact hnc
  · rw [pathMax_concat d path h.ne c next hlast, h.bn]
  · rcases hcond with hnm | ⟨hh, hded⟩
    · left
      rw [List.nodup_append]
      refine ⟨hopen, List.nodup_singleton next, ?_⟩
      intro x hxp hxn
      rw [List.mem_singleton.mp hxn] at hxp
      exact hnm hxp
    · right
      have hdl : path.dedup = path := hopen.dedup
      have hplen : path.length = cities.length := by rw [← hdl]; exact hded
      exact ⟨path, next, rfl, hopen, by rw [← h.hd]; exact hh, hplen⟩

/-! ### The breadth-first module, analysed -/

/-- Under the candidate condition the extra "too early back to start" guard
of `bfs_tsp` is always passed (the start is already on the path). -/
theorem bfs_guard_of_cond {cities path : List α} {next : α}
    (hcnd : next ∉ path ∨
      (path.head? = some next ∧ path.dedup.length = cities.length)) :
    ¬(path.head? = some next ∧ path.dedup.length < cities.length) := by
  rintro ⟨hh, hlt⟩
  rcases hcnd with hnm | ⟨-, hded⟩
  · exact hnm (List.mem_of_mem_head? hh)
  · omega

theorem bfs_expand_cons_neg {cities : List α} {d : α × α → Option Int} {c : α}
    {path : List α} {mj : Int} {next : α} {more : List α}
    (hcnd : ¬(next ∉ path ∨
      (path.head? = some next ∧ path.dedup.length = cities.length))) :
    bfs_expand cities d c path mj (next :: more)
      = bfs_expand cities d c path mj more := by
  simp only [bfs_expand]
  rw [if_neg hcnd]

theorem bfs_expand_cons_none {cities : List α} {d : α × α → Option Int} {c : α}
    {path : List α} {mj : Int} {next : α} {more : List α}
    (hcnd : next ∉ path ∨
      (path.head? = some next ∧ path.dedup.length = cities.length))
    (hw : d (c, next) = none) :
    bfs_expand cities d c path mj (next :: more) = none := by
  simp only [bfs_expand]
  rw [if_pos hcnd, hw]

theorem bfs_expand_cons_pos {cities : List α} {d : α × α → Option Int} {c : α}
    {path : List α} {mj : Int} {next : α} {more : List α} {w : Int}
    (hcnd : next ∉ path ∨
      (path.head? = some next ∧ path.dedup.length = cities.length))
    (hw : d (c, next) = some w) :
    bfs_expand cities d c path mj (next :: more)
      = (bfs_expand cities d c path mj more).map
          (fun l => (next, path ++ [next], max mj w) :: l) := by
  have h1 : bfs_expand cities d c path mj (next :: more)
      = if ¬(path.head? = some next ∧ path.dedup.length < cities.length) then
          (bfs_expand cities d c path mj more).map
            (fun l => (next, path ++ [next], max mj w) :: l)
        else bfs_expand cities d c path mj more := by
    simp only [bfs_expand]
    rw [if_pos hcnd, hw]
  rw [h1, if_pos (bfs_guard_of_cond hcnd)]

/-- On success `bfs_tsp`'s successor loop returns exactly one extension per
candidate, in candidate order. -/
theorem bfs_expand_sound {cities : List α} {d : α × α → Option Int} {c : α}
    {path : List α} {mj : Int} :
    ∀ (cs : List α) (l : List (α × List α × Int)),
      bfs_expand cities d c path mj cs = some l →
      l = (cs.filter fun x => decide (x ∉ path ∨
            (path.head? = some x ∧ path.dedup.length = cities.length))).map
          (fun next => (next, path ++ [next], max mj ((d (c, next)).getD 0))) := by
  intro cs
  induction cs with
  | nil =>
    intro l h
    have h' : some ([] : List (α × List α × Int)) = some l := h
    rw [← Option.some_inj.mp h']
    simp
  | cons next more ih =>
    intro l h
    by_cases hcnd : (next ∉ path ∨
        (path.head? = some next ∧ path.dedup.length = cities.length))
    · rcases hw : d (c, next) with _ | w
      · rw [bfs_expand_cons_none hcnd hw] at h
        exact absurd h (by simp)
      · rw [bfs_expand_cons_pos hcnd hw] at h
        rcases hr : bfs_expand cities d c path mj more with _ | l'
        · rw [hr] at h
          exact absurd h (by simp)
        · rw [hr] at h
          have h' : some ((next, path ++ [next], max mj w) :: l') = some l := h
          rw [← Option.some_inj.mp h', ih l' hr]
          simp [List.filter_cons, hcnd, hw]
    · rw [bfs_expand_cons_neg hcnd] at h
      rw [ih l h]
      simp [List.filter_cons, hcnd]

theorem bfs_expand_total {cities : List α} {d : α × α → Option Int} {c : α}
    {path : List α} {mj : Int} :
    ∀ cs : List α,
      (∀ next ∈ cs, (next ∉ path ∨
        (path.head? = some next ∧ path.dedup.length = cities.length)) →
        (d (c, next)).isSome) →
      ∃ l, bfs_expand cities d c path mj cs = some l := by
  intro cs
  induction cs with
  | nil => exact fun _ => ⟨[], rfl⟩
  | cons next more ih =>
    intro htot
    obtain ⟨l', hl'⟩ := ih fun x hx hc => htot x (List.mem_cons_of_mem _ hx) hc
    by_cases hcnd : (next ∉ path ∨
        (path.head? = some next ∧ path.dedup.length = cities.length))
    · obtain ⟨w, hw⟩ := Option.isSome_iff_exists.mp
        (htot next (List.mem_cons_self ..) hcnd)
      refine ⟨(next, path ++ [next], max mj w) :: l', ?_⟩
      rw [bfs_expand_cons_pos hcnd hw, hl']
      rfl
    · rw [bfs_expand_cons_neg hcnd]
      exact ⟨l', hl'⟩

theorem bfs_step_closed {cities : List α} {d : α × α → Option Int} {c : α}
    {path : List α} {mj : Int} (h : WfPath cities d path mj)
    (hcl : Closed cities path) :
    bfs_step cities d (c, path, mj) = .goal path mj := by
  simp only [bfs_step]
  rw [if_pos ((closed_iff_lengthLast h).mpr hcl)]

theorem bfs_step_goal_inv {cities : List α} {d : α × α → Option Int} {c : α}
    {path p : List α} {mj v : Int}
    (h : bfs_step cities d (c, path, mj) = .goal p v) :
    (path.length = cities.length + 1 ∧ path.getLast? = path.head?) ∧
      p = path ∧ v = mj := by
  simp only [bfs_step] at h
  by_cases hc : (path.length = cities.length + 1 ∧ path.getLast? = path.head?)
  · rw [if_pos hc] at h
    have h' : StepR.goal (σ := α × List α × Int) path mj = .goal p v := h
    injection h' with h1 h2
    exact ⟨hc, h1.symm, h2.symm⟩
  · rw [if_neg hc] at h
    rcases hr : bfs_expand cities d c path mj cities with _ | l <;> rw [hr] at h
    · exact absurd
        (show StepR.crash (σ := α × List α × Int) (α := α) = .goal p v from h)
        (by simp)
    · exact absurd
        (show StepR.expand (α := α) l = .goal p v from h) (by simp)

theorem bfs_step_expand_inv {cities : List α} {d : α × α → Option Int} {c : α}
    {path : List α} {mj : Int} {l : List (α × List α × Int)}
    (h : bfs_step cities d (c, path, mj) = .expand l) :
    ¬(path.length = cities.length + 1 ∧ path.getLast? = path.head?) ∧
      bfs_expand cities d c path mj cities = some l := by
  simp only [bfs_step] at h
  by_cases hc : (path.length = cities.length + 1 ∧ path.getLast? = path.head?)
  · rw [if_pos hc] at h
    exact absurd
      (show StepR.goal (σ := α × List α × Int) path mj = .expand l from h)
      (by simp)
  · rw [if_neg hc] at h
    rcases hr : bfs_expand cities d c path mj cities with _ | l' <;> rw [hr] at h
    · exact absurd
        (show StepR.crash (σ := α × List α × Int) (α := α) = .expand l from h)
        (by simp)
    · have h' : StepR.expand (α := α) l' = .expand l := h
      injection h' with h1
      exact ⟨hc, congrArg some h1⟩

theorem bfs_step_no_crash {cities : List α} {d : α × α → Option Int} {c : α}
    {path : List α} {mj : Int} (htot : Total d cities)
    (h : WfPath cities d path mj) (hlast : path.getLast? = some c) :
    bfs_step cities d (c, path, mj) ≠ .crash := by
  have hcm : c ∈ cities := h.sub c (List.mem_of_mem_getLast? hlast)
  simp only [bfs_step]
  by_cases hc : (path.length = cities.length + 1 ∧ path.getLast? = path.head?)
  · rw [if_pos hc]
    simp
  · rw [if_neg hc]
    obtain ⟨l, hl⟩ : ∃ l, bfs_expand cities d c path mj cities = some l :=
      bfs_expand_total cities (fun next hnext _ => htot c hcm next hnext)
    rw [hl]
    simp

/-- The breadth-first module as an instance of the common abstraction. -/
def bfsAlg (cities : List α) (d : α × α → Option Int) :
    Alg cities d (α × List α × Int) where
  step := bfs_step cities d
  pathOf s := s.2.1
  mjOf s := s.2.2
  W s := WfPath cities d s.2.1 s.2.2 ∧ s.2.1.getLast? = some s.1
  hW := fun s hw => hw.1
  hgoal := fun s hw hcl => by
    obtain ⟨c, path, mj⟩ := s
    exact bfs_step_closed hw.1 hcl
  hgoal_inv := fun s p v hw hstep => by
    obtain ⟨c, path, mj⟩ := s
    obtain ⟨hc, rfl, rfl⟩ := bfs_step_goal_inv hstep
    exact ⟨(closed_iff_lengthLast hw.1).mp hc, rfl, rfl⟩
  hexp := fun s l hw hstep => by
    obtain ⟨c, path, mj⟩ := s
    obtain ⟨hnc, hsome⟩ := bfs_step_expand_inv hstep
    have hncl : ¬ Closed cities path := fun hcl =>
      hnc ((closed_iff_lengthLast hw.1).mpr hcl)
    have hl := bfs_expand_sound cities l hsome
    refine ⟨hncl, ?_, ?_⟩
    · rw [hl, cand]
      simp [List.map_map, Function.comp]
    · intro t ht
      rw [hl] at ht
      obtain ⟨next, hnextmem, rfl⟩ := List.mem_map.mp ht
      have hnext_cond : next ∉ path ∨
          (path.head? = some next ∧ path.dedup.length = cities.length) :=
        of_decide_eq_true (List.mem_filter.mp hnextmem).2
      have hnextc : next ∈ cities := (List.mem_filter.mp hnextmem).1
      exact ⟨wfpath_extend hw.1 hw.2 hnextc hnext_cond hncl,
        List.getLast?_concat path⟩

/-! ### The uniform-cost module, analysed -/

theorem ucs_guard_of_cond {cities path : List α} {next : α}
    (hhd : path.head? = cities.head?)
    (hcnd : next ∉ path ∨
      (cities.head? = some next ∧ path.dedup.length = cities.length)) :
    ¬(cities.head? = some next ∧ path.dedup.length < cities.length) := by
  rintro ⟨hh, hlt⟩
  rcases hcnd with hnm | ⟨-, hded⟩
  · exact hnm (List.mem_of_mem_head? (hhd.trans hh))
  · omega

theorem ucs_expand_cons_neg {cities : List α} {d : α × α → Option Int} {c : α}
    {path : List α} {mj : Int} {next : α} {more : List α}
    (hcnd : ¬(next ∉ path ∨
      (cities.head? = some next ∧ path.dedup.length = cities.length))) :
    ucs_expand cities d c path mj (next :: more)
      = ucs_expand cities d c path mj more := by
  simp only [ucs_expand]
  rw [if_neg hcnd]

theorem ucs_expand_cons_none {cities : List α} {d : α × α → Option Int} {c : α}
    {path : List α} {mj : Int} {next : α} {more : List α}
    (hcnd : next ∉ path ∨
      (cities.head? = some next ∧ path.dedup.length = cities.length))
    (hw : d (c, next) = none) :
    ucs_expand cities d c path mj (next :: more) = none := by
  simp only [ucs_expand]
  rw [if_pos hcnd, hw]

theorem ucs_expand_cons_pos {cities : List α} {d : α × α → Option Int} {c : α}
    {path : List α} {mj : Int} {next : α} {more : List α} {w : Int}
    (hhd : path.head? = cities.head?)
    (hcnd : next ∉ path ∨
      (cities.head? = some next ∧ path.dedup.length = cities.length))
    (hw : d (c, next) = some w) :
    ucs_expand cities d c path mj (next :: more)
      = (ucs_expand cities d c path mj more).map
          (fun l => (max mj w, path ++ [next]) :: l) := by
  have h1 : ucs_expand cities d c path mj (next :: more)
      = if ¬(cities.head? = some next ∧ path.dedup.length < cities.length) then
          (ucs_expand cities d c path mj more).map
            (fun l => (max mj w, path ++ [next]) :: l)
        else ucs_expand cities d c path mj more := by
    simp only [ucs_expand]
    rw [if_pos hcnd, hw]
  rw [h1, if_pos (ucs_guard_of_cond hhd hcnd)]

theorem ucs_expand_sound {cities : List α} {d : α × α → Option Int} {c : α}
    {path : List α} {mj : Int} (hhd : path.head? = cities.head?) :
    ∀ (cs : List α) (l : List (Int × List α)),
      ucs_expand cities d c path mj cs = some l →
      l = (cs.filter fun x => decide (x ∉ path ∨
            (cities.head? = some x ∧ path.dedup.length = cities.length))).map
          (fun next => (max mj ((d (c, next)).getD 0), path ++ [next])) := by
  intro cs
  induction cs with
  | nil =>
    intro l h
    have h' : some ([] : List (Int × List α)) = some l := h
    rw [← Option.some_inj.mp h']
    simp
  | cons next more ih =>
    intro l h
    by_cases hcnd : (next ∉ path ∨
        (cities.head? = some next ∧ path.dedup.length = cities.length))
    · rcases hw : d (c, next) with _ | w
      · rw [ucs_expand_cons_none hcnd hw] at h
        exact absurd h (by simp)
      · rw [ucs_expand_cons_pos hhd hcnd hw] at h
        rcases hr : ucs_expand cities d c path mj more with _ | l'
        · rw [hr] at h
          exact absurd h (by simp)
        · rw [hr] at h
          have h' : some ((max mj w, path ++ [next]) :: l') = some l := h
          rw [← Option.some_inj.mp h', ih l' hr]
          simp [List.filter_cons, hcnd, hw]
    · rw [ucs_expand_cons_neg hcnd] at h
      rw [ih l h]
      simp [List.filter_cons, hcnd]

theorem ucs_expand_total {cities : List α} {d : α × α → Option Int} {c : α}
    {path : List α} {mj : Int} (hhd : path.head? = cities.head?) :
    ∀ cs : List α,
      (∀ next ∈ cs, (next ∉ path ∨
        (cities.head? = some next ∧ path.dedup.length = cities.length)) →
        (d (c, next)).isSome) →
      ∃ l, ucs_expand cities d c path mj cs = some l := by
  intro cs
  induction cs with
  | nil => exact fun _ => ⟨[], rfl⟩
  | cons next more ih =>
    intro htot
    obtain ⟨l', hl'⟩ := ih fun x hx hc => htot x (List.mem_cons_of_mem _ hx) hc
    by_cases hcnd : (next ∉ path ∨
        (cities.head? = some next ∧ path.dedup.length = cities.length))
    · obtain ⟨w, hw⟩ := Option.isSome_iff_exists.mp
        (htot next (List.mem_cons_self ..) hcnd)
      refine ⟨(max mj w, path ++ [next]) :: l', ?_⟩
      rw [ucs_expand_cons_pos hhd hcnd hw, hl']
      rfl
    · rw [ucs_expand_cons_neg hcnd]
      exact ⟨l', hl'⟩

theorem ucs_step_some {cities : List α} {d : α × α → Option Int} {c : α}
    {path : List α} {mj : Int} (hc0 : path.getLast? = some c) :
    ucs_step cities d (mj, path)
      = if 1 < path.length ∧ path.getLast? = cities.head? ∧
            path.dropLast.dedup.length = cities.length then .goal path mj
        else match ucs_expand cities d c path mj cities with
          | none => .crash
          | some l => .expand l := by
  simp only [ucs_step]
  rw [hc0]

theorem ucs_step_closed {cities : List α} {d : α × α → Option Int}
    {path : List α} {mj : Int} (h : WfPath cities d path mj)
    (hcl : Closed cities path) :
    ucs_step cities d (mj, path) = .goal path mj := by
  have hc0 : path.getLast? = some (path.getLast h.ne) :=
    List.getLast?_eq_getLast _ h.ne
  rw [ucs_step_some hc0, if_pos ((closed_iff_ucsTest h).mpr hcl)]

theorem ucs_step_goal_inv {cities : List α} {d : α × α → Option Int}
    {path p : List α} {mj v : Int} (h : WfPath cities d path mj)
    (hstep : ucs_step cities d (mj, path) = .goal p v) :
    Closed cities path ∧ p = path ∧ v = mj := by
  have hc0 : path.getLast? = some (path.getLast h.ne) :=
    List.getLast?_eq_getLast _ h.ne
  rw [ucs_step_some hc0] at hstep
  by_cases hc : (1 < path.length ∧ path.getLast? = cities.head? ∧
      path.dropLast.dedup.length = cities.length)
  · rw [if_pos hc] at hstep
    have h' : StepR.goal (σ := Int × List α) path mj = .goal p v := hstep
    injection h' with h1 h2
    exact ⟨(closed_iff_ucsTest h).mp hc, h1.symm, h2.symm⟩
  · rw [if_neg hc] at hstep
    rcases hr : ucs_expand cities d (path.getLast h.ne) path mj cities
        with _ | l' <;> rw [hr] at hstep
    · exact absurd
        (show StepR.crash (σ := Int × List α) (α := α) = .goal p v from hstep)
        (by simp)
    · exact absurd
        (show StepR.expand (α := α) l' = .goal p v from hstep) (by simp)

theorem ucs_step_expand_inv {cities : List α} {d : α × α → Option Int}
    {path : List α} {mj : Int} {l : List (Int × List α)}
    (h : WfPath cities d path mj)
    (hstep : ucs_step cities d (mj, path) = .expand l) :
    ∃ c, path.getLast? = some c ∧
      ¬(1 < path.length ∧ path.getLast? = cities.head? ∧
          path.dropLast.dedup.length = cities.length) ∧
      ucs_expand cities d c path mj cities = some l := by
  have hc0 : path.getLast? = some (path.getLast h.ne) :=
    List.getLast?_eq_getLast _ h.ne
  rw [ucs_step_some hc0] at hstep
  by_cases hc : (1 < path.length ∧ path.getLast? = cities.head? ∧
      path.dropLast.dedup.length = cities.length)
  · rw [if_pos hc] at hstep
    exact absurd
      (show StepR.goal (σ := Int × List α) path mj = .expand l from hstep)
      (by simp)
  · rw [if_neg hc] at hstep
    rcases hr : ucs_expand cities d (path.getLast h.ne) path mj cities
        with _ | l' <;> rw [hr] at hstep
    · exact absurd
        (show StepR.crash (σ := Int × List α) (α := α) = .expand l from hstep)
        (by simp)
    · have h' : StepR.expand (α := α) l' = .expand l := hstep
      injection h' with h1
      exact ⟨path.getLast h.ne, hc0, hc, hr.trans (congrArg some h1)⟩

theorem ucs_step_no_crash {cities : List α} {d : α × α → Option Int}
    {path : List α} {mj : Int} (htot : Total d cities)
    (h : WfPath cities d path mj) :
    ucs_step cities d (mj, path) ≠ .crash := by
  have hc0 : path.getLast? = some (path.getLast h.ne) :=
    List.getLast?_eq_getLast _ h.ne
  have hcm : path.getLast h.ne ∈ cities :=
    h.sub _ (List.mem_of_mem_getLast? hc0)
  rw [ucs_step_some hc0]
  by_cases hc : (1 < path.length ∧ path.getLast? = cities.head? ∧
      path.dropLast.dedup.length = cities.length)
  · rw [if_pos hc]
    simp
  · rw [if_neg hc]
    obtain ⟨l, hl⟩ : ∃ l, ucs_expand cities d (path.getLast h.ne) path mj
        cities = some l :=
      ucs_expand_total h.hd cities (fun next hnext _ => htot _ hcm next hnext)
    rw [hl]
    simp

/-- The uniform-cost module as an instance of the common abstraction. -/
def ucsAlg (cities : List α) (d : α × α → Option Int) :
    Alg cities d (Int × List α) where
  step := ucs_step cities d
  pathOf s := s.2
  mjOf s := s.1
  W s := WfPath cities d s.2 s.1
  hW := fun s hw => hw
  hgoal := fun s hw hcl => by
    obtain ⟨mj, path⟩ := s
    exact ucs_step_closed hw hcl
  hgoal_inv := fun s p v hw hstep => by
    obtain ⟨mj, path⟩ := s
    exact ucs_step_goal_inv hw hstep
  hexp := fun s l hw hstep => by
    obtain ⟨mj, path⟩ := s
    obtain ⟨c, hc0, hnc, hsome⟩ := ucs_step_expand_inv hw hstep
    have hncl : ¬ Closed cities path := fun hcl =>
      hnc ((closed_iff_ucsTest hw).mpr hcl)
    have hl := ucs_expand_sound hw.hd cities l hsome
    have hfe : (cities.filter fun x => decide (x ∉ path ∨
          (cities.head? = some x ∧ path.dedup.length = cities.length)))
        = cand cities path := by
      rw [cand]
      refine List.filter_congr fun x hx => ?_
      apply decide_eq_decide.mpr
      rw [hw.hd]
    refine ⟨hncl, ?_, ?_⟩
    · rw [hl, hfe, cand]
      simp [List.map_map, Function.comp]
    · intro t ht
      rw [hl, hfe] at ht
      obtain ⟨next, hnextmem, rfl⟩ := List.mem_map.mp ht
      have hnext_cond : next ∉ path ∨
          (path.head? = some next ∧ path.dedup.length = cities.length) :=
        of_decide_eq_true (List.mem_filter.mp hnextmem).2
      have hnextc : next ∈ cities := (List.mem_filter.mp hnextmem).1
      exact wfpath_extend hw hc0 hnextc hnext_cond hncl

/-! ### The informed module, analysed -/

theorem lookupAll_cons_none {d : α × α → Option Int} {cur x : α} {rest : List α}
    (hw : d (cur, x) = none) : lookupAll d cur (x :: rest) = none := by
  simp only [lookupAll]
  rw [hw]

theorem lookupAll_cons_some {d : α × α → Option Int} {cur x : α} {rest : List α}
    {w : Int} (hw : d (cur, x) = some w) :
    lookupAll d cur (x :: rest)
      = (lookupAll d cur rest).map (fun ws => w :: ws) := by
  simp only [lookupAll]
  rw [hw]

theorem lookupAll_total {d : α × α → Option Int} {cur : α} :
    ∀ cs : List α, (∀ x ∈ cs, (d (cur, x)).isSome) →
      ∃ ws, lookupAll d cur cs = some ws := by
  intro cs
  induction cs with
  | nil => exact fun _ => ⟨[], rfl⟩
  | cons x rest ih =>
    intro htot
    obtain ⟨ws, hws⟩ := ih fun y hy => htot y (List.mem_cons_of_mem _ hy)
    obtain ⟨w, hw⟩ := Option.isSome_iff_exists.mp (htot x (List.mem_cons_self ..))
    refine ⟨w :: ws, ?_⟩
    rw [lookupAll_cons_some hw, hws]
    rfl

theorem heuristicM_total {d : α × α → Option Int} {remaining : List α} {cur : α}
    (htot : ∀ x ∈ remaining, x ≠ cur → (d (cur, x)).isSome) :
    ∃ h, heuristicM d remaining cur = some h := by
  obtain ⟨ws, hws⟩ : ∃ ws, lookupAll d cur
      (remaining.filter fun c => decide (c ≠ cur)) = some ws :=
    lookupAll_total (remaining.filter fun c => decide (c ≠ cur))
    (fun x hx => by
      have hm := List.mem_filter.mp hx
      exact htot x hm.1 (of_decide_eq_true hm.2))
  refine ⟨minList ws, ?_⟩
  simp only [heuristicM]
  rw [hws]

theorem astar_expand_cons1 {cities : List α} {d : α × α → Option Int}
    {cost : Int} {c : α} {path : List α} {mj : Int} {remaining : List α}
    {next : α} {more : List α} {w : Int} (hw : d (c, next) = some w) :
    astar_expand cities d cost c path mj remaining (next :: more)
      = match heuristicM d remaining next with
        | none => none
        | some h => (astar_expand cities d cost c path mj remaining more).map
            (fun l => (cost + w + h, path ++ [next], max mj w) :: l) := by
  simp only [astar_expand]
  rw [hw]

theorem astar_expand_cons_none {cities : List α} {d : α × α → Option Int}
    {cost : Int} {c : α} {path : List α} {mj : Int} {remaining : List α}
    {next : α} {more : List α} (hw : d (c, next) = none) :
    astar_expand cities d cost c path mj remaining (next :: more) = none := by
  simp only [astar_expand]
  rw [hw]

theorem astar_expand_cons_pos {cities : List α} {d : α × α → Option Int}
    {cost : Int} {c : α} {path : List α} {mj : Int} {remaining : List α}
    {next : α} {more : List α} {w h : Int} (hw : d (c, next) = some w)
    (hh : heuristicM d remaining next = some h) :
    astar_expand cities d cost c path mj remaining (next :: more)
      = (astar_expand cities d cost c path mj remaining more).map
          (fun l => (cost + w + h, path ++ [next], max mj w) :: l) := by
  rw [astar_expand_cons1 hw, hh]

theorem astar_expand_cons_noh {cities : List α} {d : α × α → Option Int}
    {cost : Int} {c : α} {path : List α} {mj : Int} {remaining : List α}
    {next : α} {more : List α} {w : Int} (hw : d (c, next) = some w)
    (hh : heuristicM d remaining next = none) :
    astar_expand cities d cost c path mj remaining (next :: more) = none := by
  rw [astar_expand_cons1 hw, hh]

theorem astar_expand_sound {cities : List α} {d : α × α → Option Int}
    {cost : Int} {c : α} {path : List α} {mj : Int} {remaining : List α} :
    ∀ (cs : List α) (l : List (Int × List α × Int)),
      astar_expand cities d cost c path mj remaining cs = some l →
      l = cs.map fun next =>
        (cost + (d (c, next)).getD 0 + (heuristicM d remaining next).getD 0,
          path ++ [next], max mj ((d (c, next)).getD 0)) := by
  intro cs
  induction cs with
  | nil =>
    intro l h
    have h' : some ([] : List (Int × List α × Int)) = some l := h
    rw [← Option.some_inj.mp h']
    simp
  | cons next more ih =>
    intro l h
    rcases hw : d (c, next) with _ | w
    · rw [astar_expand_cons_none hw] at h
      exact absurd h (by simp)
    · rcases hh : heuristicM d remaining next with _ | hv
      · rw [astar_expand_cons_noh hw hh] at h
        exact absurd h (by simp)
      · rw [astar_expand_cons_pos hw hh] at h
        rcases hr : astar_expand cities d cost c path mj remaining more
            with _ | l'
        · rw [hr] at h
          exact absurd h (by simp)
        · rw [hr] at h
          have h' : some ((cost + w + hv, path ++ [next], max mj w) :: l')
              = some l := h
          rw [← Option.some_inj.mp h', ih l' hr]
          simp [hw, hh]

theorem astar_expand_total {cities : List α} {d : α × α → Option Int}
    {cost : Int} {c : α} {path : List α} {mj : Int} {remaining : List α} :
    ∀ cs : List α,
      (∀ next ∈ cs, (d (c, next)).isSome ∧
        ∃ h, heuristicM d remaining next = some h) →
      ∃ l, astar_expand cities d cost c path mj remaining cs = some l := by
  intro cs
  induction cs with
  | nil => exact fun _ => ⟨[], rfl⟩
  | cons next more ih =>
    intro htot
    obtain ⟨l', hl'⟩ := ih fun x hx => htot x (List.mem_cons_of_mem _ hx)
    obtain ⟨⟨w, hw⟩, hv, hh⟩ :
        (∃ w, d (c, next) = some w) ∧ ∃ h, heuristicM d remaining next = some h :=
      ⟨Option.isSome_iff_exists.mp (htot next (List.mem_cons_self ..)).1,
        (htot next (List.mem_cons_self ..)).2⟩
    refine ⟨(cost + w + hv, path ++ [next], max mj w) :: l', ?_⟩
    rw [astar_expand_cons_pos hw hh, hl']
    rfl

theorem astar_step_some {cities : List α} {d : α × α → Option Int}
    {cost : Int} {path : List α} {mj : Int} {c : α}
    (hc0 : path.getLast? = some c) :
    astar_step cities d (cost, path, mj)
      = if path.length = cities.length + 1 ∧ path.getLast? = path.head? then
          .goal path mj
        else match astar_expand cities d cost c path mj (cand cities path)
            (cand cities path) with
          | none => .crash
          | some l => .expand l := by
  simp only [astar_step]
  rw [hc0]

theorem astar_step_closed {cities : List α} {d : α × α → Option Int}
    {cost : Int} {path : List α} {mj : Int} (h : WfPath cities d path mj)
    (hcl : Closed cities path) :
    astar_step cities d (cost, path, mj) = .goal path mj := by
  have hc0 : path.getLast? = some (path.getLast h.ne) :=
    List.getLast?_eq_getLast _ h.ne
  rw [astar_step_some hc0, if_pos ((closed_iff_lengthLast h).mpr hcl)]

theorem astar_step_goal_inv {cities : List α} {d : α × α → Option Int}
    {cost : Int} {path p : List α} {mj v : Int} (h : WfPath cities d path mj)
    (hstep : astar_step cities d (cost, path, mj) = .goal p v) :
    Closed cities path ∧ p = path ∧ v = mj := by
  have hc0 : path.getLast? = some (path.getLast h.ne) :=
    List.getLast?_eq_getLast _ h.ne
  rw [astar_step_some hc0] at hstep
  by_cases hc : (path.length = cities.length + 1 ∧ path.getLast? = path.head?)
  · rw [if_pos hc] at hstep
    have h' : StepR.goal (σ := Int × List α × Int) path mj = .goal p v := hstep
    injection h' with h1 h2
    exact ⟨(closed_iff_lengthLast h).mp hc, h1.symm, h2.symm⟩
  · rw [if_neg hc] at hstep
    rcases hr : astar_expand cities d cost (path.getLast h.ne) path mj
        (cand cities path) (cand cities path) with _ | l' <;> rw [hr] at hstep
    · exact absurd
        (show StepR.crash (σ := Int × List α × Int) (α := α) = .goal p v
          from hstep) (by simp)
    · exact absurd
        (show StepR.expand (α := α) l' = .goal p v from hstep) (by simp)

theorem astar_step_expand_inv {cities : List α} {d : α × α → Option Int}
    {cost : Int} {path : List α} {mj : Int} {l : List (Int × List α × Int)}
    (h : WfPath cities d path mj)
    (hstep : astar_step cities d (cost, path, mj) = .expand l) :
    ∃ c, path.getLast? = some c ∧
      ¬(path.length = cities.length + 1 ∧ path.getLast? = path.head?) ∧
      astar_expand cities d cost c path mj (cand cities path)
        (cand cities path) = some l := by
  have hc0 : path.getLast? = some (path.getLast h.ne) :=
    List.getLast?_eq_getLast _ h.ne
  rw [astar_step_some hc0] at hstep
  by_cases hc : (path.length = cities.length + 1 ∧ path.getLast? = path.head?)
  · rw [if_pos hc] at hstep
    exact absurd
      (show StepR.goal (σ := Int × List α × Int) path mj = .expand l from hstep)
      (by simp)
  · rw [if_neg hc] at hstep
    rcases hr : astar_expand cities d cost (path.getLast h.ne) path mj
        (cand cities path) (cand cities path) with _ | l' <;> rw [hr] at hstep
    · exact absurd
        (show StepR.crash (σ := Int × List α × Int) (α := α) = .expand l
          from hstep) (by simp)
    · have h' : StepR.expand (α := α) l' = .expand l := hstep
      injection h' with h1
      exact ⟨path.getLast h.ne, hc0, hc, hr.trans (congrArg some h1)⟩

theorem cand_subset {cities path : List α} : ∀ x ∈ cand cities path, x ∈ cities :=
  fun x hx => (List.mem_filter.mp hx).1

theorem astar_step_no_crash {cities : List α} {d : α × α → Option Int}
    {cost : Int} {path : List α} {mj : Int} (htot : Total d cities)
    (h : WfPath cities d path mj) :
    astar_step cities d (cost, path, mj) ≠ .crash := by
  have hc0 : path.getLast? = some (path.getLast h.ne) :=
    List.getLast?_eq_getLast _ h.ne
  have hcm : path.getLast h.ne ∈ cities :=
    h.sub _ (List.mem_of_mem_getLast? hc0)
  rw [astar_step_some hc0]
  by_cases hc : (path.length = cities.length + 1 ∧ path.getLast? = path.head?)
  · rw [if_pos hc]
    simp
  · rw [if_neg hc]
    obtain ⟨l, hl⟩ : ∃ l, astar_expand cities d cost (path.getLast h.ne) path
        mj (cand cities path) (cand cities path) = some l :=
      astar_expand_total (cand cities path)
        (fun next hnext => ⟨htot _ hcm next (cand_subset next hnext),
          heuristicM_total fun x hx _ =>
            htot next (cand_subset next hnext) x (cand_subset x hx)⟩)
    rw [hl]
    simp

/-- The informed module as an instance of the common abstraction (the
priority key is unconstrained: it never influences which states exist,
only the order in which `heappop` visits them). -/
def astarAlg (cities : List α) (d : α × α → Option Int) :
    Alg cities d (Int × List α × Int) where
  step := astar_step cities d
  pathOf s := s.2.1
  mjOf s := s.2.2
  W s := WfPath cities d s.2.1 s.2.2
  hW := fun s hw => hw
  hgoal := fun s hw hcl => by
    obtain ⟨cost, path, mj⟩ := s
    exact astar_step_closed hw hcl
  hgoal_inv := fun s p v hw hstep => by
    obtain ⟨cost, path, mj⟩ := s
    exact astar_step_goal_inv hw hstep
  hexp := fun s l hw hstep => by
    obtain ⟨cost, path, mj⟩ := s
    obtain ⟨c, hc0, hnc, hsome⟩ := astar_step_expand_inv hw hstep
    have hncl : ¬ Closed cities path := fun hcl =>
      hnc ((closed_iff_lengthLast hw).mpr hcl)
    have hl := astar_expand_sound (cand cities path) l hsome
    refine ⟨hncl, ?_, ?_⟩
    · rw [hl]
      simp [List.map_map, Function.comp]
    · intro t ht
      rw [hl] at ht
      obtain ⟨next, hnextmem, rfl⟩ := List.mem_map.mp ht
      have hnext_cond : next ∉ path ∨
          (path.head? = some next ∧ path.dedup.length = cities.length) :=
        of_decide_eq_true (List.mem_filter.mp hnextmem).2
      exact wfpath_extend hw hc0 (cand_subset next hnextmem) hnext_cond hncl

/-! ### Exhaustiveness: goal values are exactly the tour bottlenecks -/

theorem wf_cities_ne {cities path : List α} {d : α × α → Option Int} {mj : Int}
    (h : WfPath cities d path mj) : cities ≠ [] := by
  intro hc
  subst hc
  have hhd := h.hd
  simp only [List.head?_nil] at hhd
  exact h.ne (List.head?_eq_none_iff.mp hhd)

/-- Every tour extending the path of a well-formed state is found below it. -/
theorem Alg.up {cities : List α} {d : α × α → Option Int} {σ : Type}
    (A : Alg cities d σ) (hn : cities.Nodup)
    (hcr : ∀ s, A.W s → A.step s ≠ .crash) {T : List α}
    (hT : IsTour cities T) :
    ∀ (rest : List α) (s : σ), A.W s → T = A.pathOf s ++ rest →
      pathMax d T ∈ gvF A.step (stepsLeft cities (A.pathOf s) + 1) s := by
  intro rest
  induction rest with
  | nil =>
    intro s hWs hpre
    rw [List.append_nil] at hpre
    have hwf := A.hW s hWs
    have hcne : cities ≠ [] := wf_cities_ne hwf
    have hcl : Closed cities (A.pathOf s) := by
      rw [← hpre]
      exact isTour_closed hn hcne hT
    have hstep := A.hgoal s hWs hcl
    rw [A.gvF_goal hstep]
    have : pathMax d T = A.mjOf s := by rw [hpre, ← hwf.bn]
    rw [this]
    exact List.mem_singleton.mpr rfl
  | cons next rest' ih =>
    intro s hWs hpre
    have hwf := A.hW s hWs
    have hcne : cities ≠ [] := wf_cities_ne hwf
    have hTlen : T.length = cities.length + 1 := isTour_length hcne hT
    have hplen : (A.pathOf s).length + rest'.length + 1 = T.length := by
      rw [hpre]
      simp
      omega
    have hncl : ¬ Closed cities (A.pathOf s) := by
      intro hcl
      have := hcl.length_eq
      omega
    rcases hstep : A.step s with _ | ⟨p, v⟩ | l
    · exact absurd hstep (hcr s hWs)
    · exact absurd (A.hgoal_inv s p v hWs hstep).1 hncl
    · have hpne : A.pathOf s ≠ [] := hwf.ne
      have hhd : (A.pathOf s).head? = cities.head? := hwf.hd
      -- the next tour city satisfies the candidate condition
      have hstage : next ∈ cities ∧ (next ∉ A.pathOf s ∨
          ((A.pathOf s).head? = some next ∧
            (A.pathOf s).dedup.length = cities.length)) := by
        by_cases hre : rest' = []
        · -- closing step: `next` is the start and everything is visited
          subst hre
          have hdropT : T.dropLast = A.pathOf s := by
            rw [hpre, List.dropLast_concat]
          have hperm : (A.pathOf s).Perm cities := by
            rw [← hdropT]
            exact hT.2.2
          have hpnd : (A.pathOf s).Nodup := hperm.nodup_iff.mpr hn
          have hlenp : (A.pathOf s).length = cities.length := hperm.length_eq
          have hTlast : T.getLast? = some next := by
            rw [hpre]
            exact List.getLast?_concat _
          have hThead : T.head? = (A.pathOf s).head? := by
            rw [hpre]
            cases hp : A.pathOf s with
            | nil => exact absurd hp hpne
            | cons a as => rfl
          have hph : (A.pathOf s).head? = some next := by
            rw [← hThead, ← hT.2.1, hTlast]
          refine ⟨?_, Or.inr ⟨hph, by rw [hpnd.dedup, hlenp]⟩⟩
          exact List.mem_of_mem_head? (hhd ▸ hph)
        · -- interior step: `next` is unvisited
          have hdropT : T.dropLast = A.pathOf s ++ next :: rest'.dropLast := by
            rw [hpre, List.dropLast_append_of_ne_nil _ (by simp),
              List.dropLast_cons_of_ne_nil hre]
          have hnd : T.dropLast.Nodup := hT.2.2.nodup_iff.mpr hn
          rw [hdropT] at hnd
          rw [List.nodup_append] at hnd
          have hnm : next ∉ A.pathOf s := fun hmem =>
            hnd.2.2 hmem (List.mem_cons_self ..)
          have hnc : next ∈ cities := by
            refine hT.2.2.mem_iff.mp ?_
            rw [hdropT]
            exact List.mem_append.mpr (Or.inr (List.mem_cons_self ..))
          exact ⟨hnc, Or.inl hnm⟩
      have hcand : next ∈ cand cities (A.pathOf s) :=
        List.mem_filter.mpr ⟨hstage.1, decide_eq_true hstage.2⟩
      obtain ⟨-, hmap, hws⟩ := A.hexp s l hWs hstep
      have hmm : A.pathOf s ++ [next] ∈ l.map A.pathOf := by
        rw [hmap]
        exact List.mem_map_of_mem _ hcand
      obtain ⟨t, htl, hpath⟩ := List.mem_map.mp hmm
      have hWt : A.W t := hws t htl
      have hpre' : T = A.pathOf t ++ rest' := by
        rw [hpath, hpre, List.append_cons]
      have hrec := ih t hWt hpre'
      rw [A.gvF_expand hWs hstep]
      exact List.mem_flatMap.mpr ⟨t, htl, hrec⟩

/-- Every goal value below a well-formed state is the bottleneck of a tour. -/
theorem Alg.down_aux {cities : List α} {d : α × α → Option Int} {σ : Type}
    (A : Alg cities d σ) :
    ∀ (k : Nat) (s : σ) (v : Int), A.W s → stepsLeft cities (A.pathOf s) ≤ k →
      v ∈ gvF A.step (stepsLeft cities (A.pathOf s) + 1) s →
      ∃ T, IsTour cities T ∧ v = pathMax d T := by
  intro k
  induction k with
  | zero =>
    intro s v hWs hk hv
    rcases hstep : A.step s with _ | ⟨p, v'⟩ | l
    · rw [gvF_crash _ hstep] at hv
      cases hv
    · obtain ⟨hcl, -, rfl⟩ : Closed cities (A.pathOf s) ∧ p = A.pathOf s ∧
          v' = A.mjOf s := A.hgoal_inv s p v' hWs hstep
      rw [A.gvF_goal hstep] at hv
      obtain rfl := List.mem_singleton.mp hv
      exact ⟨A.pathOf s, closed_isTour (A.hW s hWs) hcl,
        (A.hW s hWs).bn⟩
    · exact absurd (A.mu_pos hWs hstep) (by omega)
  | succ k ih =>
    intro s v hWs hk hv
    rcases hstep : A.step s with _ | ⟨p, v'⟩ | l
    · rw [gvF_crash _ hstep] at hv
      cases hv
    · obtain ⟨hcl, -, rfl⟩ : Closed cities (A.pathOf s) ∧ p = A.pathOf s ∧
          v' = A.mjOf s := A.hgoal_inv s p v' hWs hstep
      rw [A.gvF_goal hstep] at hv
      obtain rfl := List.mem_singleton.mp hv
      exact ⟨A.pathOf s, closed_isTour (A.hW s hWs) hcl,
        (A.hW s hWs).bn⟩
    · rw [A.gvF_expand hWs hstep] at hv
      obtain ⟨t, htl, hvt⟩ := List.mem_flatMap.mp hv
      have hWt : A.W t := (A.hexp s l hWs hstep).2.2 t htl
      have hmu := A.mu_succ hWs hstep htl
      exact ih t v hWt (by omega) hvt

theorem Alg.down {cities : List α} {d : α × α → Option Int} {σ : Type}
    (A : Alg cities d σ) {s : σ} {v : Int} (hWs : A.W s)
    (hv : v ∈ gvF A.step (stepsLeft cities (A.pathOf s) + 1) s) :
    ∃ T, IsTour cities T ∧ v = pathMax d T :=
  A.down_aux (stepsLeft cities (A.pathOf s)) s v hWs (le_refl _) hv

/-- On a terminating run from the singleton initial frontier the returned
bottleneck is the least tour bottleneck, clipped at `sys.maxsize`. -/
theorem Alg.run_opt {cities : List α} {d : α × α → Option Int} {σ : Type}
    (A : Alg cities d σ) {pick : List σ → Option (σ × List σ)}
    (hpick : ∀ (l : List σ) (s : σ) r, pick l = some (s, r) → l.Perm (s :: r))
    (hpickN : ∀ l : List σ, pick l = none → l = [])
    (hcr : ∀ s, A.W s → A.step s ≠ .crash) (hn : cities.Nodup)
    {s0 : σ} (hW0 : A.W s0) {c0 : α} (hc0 : cities.head? = some c0)
    (hp0 : A.pathOf s0 = [c0]) {fuel : Nat} {op : Option (List α)} {v : Int}
    (hrun : genLoop pick A.step fuel [s0] (none, maxsize)
      = some (.ok (op, v))) :
    (∀ T, IsTour cities T → v ≤ pathMax d T) ∧
    (v = maxsize ∨ ∃ T, IsTour cities T ∧ v = pathMax d T) ∧ v ≤ maxsize := by
  have hval : v = (genTrace pick A.step fuel [s0]).foldl min maxsize :=
    genLoop_val fuel [s0] (none, maxsize) (op, v) hrun
  have htr := A.trace_perm hpick hpickN fuel [s0] (none, maxsize) (op, v)
    (by intro s hs; rw [List.mem_singleton.mp hs]; exact hW0) hrun
  have hsingle : ([s0].flatMap fun s =>
      gvF A.step (stepsLeft cities (A.pathOf s) + 1) s)
      = gvF A.step (stepsLeft cities (A.pathOf s0) + 1) s0 := by
    simp
  rw [hsingle] at htr
  refine ⟨?_, ?_, ?_⟩
  · intro T hTour
    have hThead : T.head? = some c0 := hTour.1.trans hc0
    have hpre : T = A.pathOf s0 ++ T.tail := by
      rw [hp0]
      cases T with
      | nil => simp at hThead
      | cons a as =>
        simp only [List.head?_cons, Option.some.injEq] at hThead
        rw [hThead]
        rfl
    have hmem := A.up hn hcr hTour T.tail s0 hW0 hpre
    have hmem' : pathMax d T ∈ genTrace pick A.step fuel [s0] :=
      htr.mem_iff.mpr hmem
    rw [hval]
    exact foldl_min_le_mem hmem' maxsize
  · rcases foldl_min_cases (genTrace pick A.step fuel [s0]) maxsize
      with hcase | hcase
    · left
      rw [hval]
      exact hcase
    · right
      have hmem : (genTrace pick A.step fuel [s0]).foldl min maxsize
          ∈ gvF A.step (stepsLeft cities (A.pathOf s0) + 1) s0 :=
        htr.mem_iff.mp hcase
      obtain ⟨T, hT, hvT⟩ := A.down hW0 hmem
      exact ⟨T, hT, by rw [hval]; exact hvT⟩
  · rw [hval]
    exact foldl_min_le_init maxsize _

/-! ### Unfolding the three entry points -/

theorem bfs_tsp_none {cities : List α} {d : α × α → Option Int} {fuel : Nat}
    (hc0 : cities.head? = none) : bfs_tsp cities d fuel = some .crash := by
  simp only [bfs_tsp]
  rw [hc0]

theorem bfs_tsp_some {cities : List α} {d : α × α → Option Int} {fuel : Nat}
    {c0 : α} (hc0 : cities.head? = some c0) :
    bfs_tsp cities d fuel
      = genLoop bfs_pick (bfs_step cities d) fuel [(c0, [c0], 0)]
          (none, maxsize) := by
  simp only [bfs_tsp]
  rw [hc0]

theorem ucs_tsp_none {cities : List α} {d : α × α → Option Int} {fuel : Nat}
    (hc0 : cities.head? = none) : ucs_tsp cities d fuel = some .crash := by
  simp only [ucs_tsp]
  rw [hc0]

theorem ucs_tsp_some {cities : List α} {d : α × α → Option Int} {fuel : Nat}
    {c0 : α} (hc0 : cities.head? = some c0) :
    ucs_tsp cities d fuel
      = genLoop (popMinBy ucsLtB) (ucs_step cities d) fuel [(0, [c0])]
          (none, maxsize) := by
  simp only [ucs_tsp]
  rw [hc0]

theorem astar_tsp_none {cities : List α} {d : α × α → Option Int} {fuel : Nat}
    (hc0 : cities.head? = none) : astar_tsp cities d fuel = some .crash := by
  simp only [astar_tsp]
  rw [hc0]

theorem astar_tsp_some {cities : List α} {d : α × α → Option Int} {fuel : Nat}
    {c0 : α} (hc0 : cities.head? = some c0) :
    astar_tsp cities d fuel
      = genLoop (popMinBy astarLtB) (astar_step cities d) fuel [(0, [c0], 0)]
          (none, maxsize) := by
  simp only [astar_tsp]
  rw [hc0]

/-! ### Initial states -/

theorem wfpath_init {cities : List α} {d : α × α → Option Int} {c0 : α}
    (hc0 : cities.head? = some c0) : WfPath cities d [c0] 0 := by
  refine ⟨by simp, by simpa using hc0.symm, ?_, rfl, Or.inl (List.nodup_singleton c0)⟩
  intro x hx
  rw [List.mem_singleton.mp hx]
  exact List.mem_of_mem_head? hc0

theorem bfsAlg_no_crash {cities : List α} {d : α × α → Option Int}
    (htot : Total d cities) :
    ∀ s, (bfsAlg cities d).W s → (bfsAlg cities d).step s ≠ .crash := by
  rintro ⟨c, path, mj⟩ ⟨hwf, hlast⟩
  exact bfs_step_no_crash htot hwf hlast

theorem ucsAlg_no_crash {cities : List α} {d : α × α → Option Int}
    (htot : Total d cities) :
    ∀ s, (ucsAlg cities d).W s → (ucsAlg cities d).step s ≠ .crash := by
  rintro ⟨mj, path⟩ hwf
  exact ucs_step_no_crash htot hwf

theorem astarAlg_no_crash {cities : List α} {d : α × α → Option Int}
    (htot : Total d cities) :
    ∀ s, (astarAlg cities d).W s → (astarAlg cities d).step s ≠ .crash := by
  rintro ⟨cost, path, mj⟩ hwf
  exact astar_step_no_crash htot hwf

/-! ### The three optimality characterisations -/

theorem bfs_opt {cities : List α} {d : α × α → Option Int}
    (hn : cities.Nodup) (htot : Total d cities) {fuel : Nat}
    {op : Option (List α)} {v : Int}
    (hrun : bfs_tsp cities d fuel = some (.ok (op, v))) :
    (∀ T, IsTour cities T → v ≤ pathMax d T) ∧
    (v = maxsize ∨ ∃ T, IsTour cities T ∧ v = pathMax d T) ∧ v ≤ maxsize := by
  rcases hc0 : cities.head? with _ | c0
  · rw [bfs_tsp_none hc0] at hrun
    simp at hrun
  · rw [bfs_tsp_some hc0] at hrun
    have hW0 : (bfsAlg cities d).W (c0, [c0], 0) :=
      ⟨wfpath_init hc0, rfl⟩
    exact (bfsAlg cities d).run_opt
      (fun l s r h => bfs_pick_perm h) (fun l h => bfs_pick_none h)
      (bfsAlg_no_crash htot) hn hW0 hc0 rfl hrun

theorem ucs_opt {cities : List α} {d : α × α → Option Int}
    (hn : cities.Nodup) (htot : Total d cities) {fuel : Nat}
    {op : Option (List α)} {v : Int}
    (hrun : ucs_tsp cities d fuel = some (.ok (op, v))) :
    (∀ T, IsTour cities T → v ≤ pathMax d T) ∧
    (v = maxsize ∨ ∃ T, IsTour cities T ∧ v = pathMax d T) ∧ v ≤ maxsize := by
  rcases hc0 : cities.head? with _ | c0
  · rw [ucs_tsp_none hc0] at hrun
    simp at hrun
  · rw [ucs_tsp_some hc0] at hrun
    have hW0 : (ucsAlg cities d).W (0, [c0]) := wfpath_init hc0
    exact (ucsAlg cities d).run_opt
      (fun l s r h => popMinBy_perm h) (fun l h => popMinBy_none h)
      (ucsAlg_no_crash htot) hn hW0 hc0 rfl hrun

theorem astar_opt {cities : List α} {d : α × α → Option Int}
    (hn : cities.Nodup) (htot : Total d cities) {fuel : Nat}
    {op : Option (List α)} {v : Int}
    (hrun : astar_tsp cities d fuel = some (.ok (op, v))) :
    (∀ T, IsTour cities T → v ≤ pathMax d T) ∧
    (v = maxsize ∨ ∃ T, IsTour cities T ∧ v = pathMax d T) ∧ v ≤ maxsize := by
  rcases hc0 : cities.head? with _ | c0
  · rw [astar_tsp_none hc0] at hrun
    simp at hrun
  · rw [astar_tsp_some hc0] at hrun
    have hW0 : (astarAlg cities d).W (0, [c0], 0) := wfpath_init hc0
    exact (astarAlg cities d).run_opt
      (fun l s r h => popMinBy_perm h) (fun l h => popMinBy_none h)
      (astarAlg_no_crash htot) hn hW0 hc0 rfl hrun

/-- Two values with the optimality characterisation are equal. -/
theorem opt_unique {cities : List α} {d : α × α → Option Int} {v₁ v₂ : Int}
    (h₁ : (∀ T, IsTour cities T → v₁ ≤ pathMax d T) ∧
      (v₁ = maxsize ∨ ∃ T, IsTour cities T ∧ v₁ = pathMax d T) ∧ v₁ ≤ maxsize)
    (h₂ : (∀ T, IsTour cities T → v₂ ≤ pathMax d T) ∧
      (v₂ = maxsize ∨ ∃ T, IsTour cities T ∧ v₂ = pathMax d T) ∧ v₂ ≤ maxsize) :
    v₁ = v₂ := by
  obtain ⟨hle₁, hcase₁, hmax₁⟩ := h₁
  obtain ⟨hle₂, hcase₂, hmax₂⟩ := h₂
  apply le_antisymm
  · rcases hcase₂ with rfl | ⟨T, hT, rfl⟩
    · exact hmax₁
    · exact hle₁ T hT
  · rcases hcase₁ with rfl | ⟨T, hT, rfl⟩
    · exact hmax₂
    · exact hle₂ T hT

/-- A generalisation of `Alg.best_inv`: any property of the best record that
is preserved by the conditional update survives the run. -/
theorem Alg.best_inv_gen {cities : List α} {d : α × α → Option Int} {σ : Type}
    (A : Alg cities d σ) {pick : List σ → Option (σ × List σ)}
    (Q : Option (List α) × Int → Prop)
    (hupd : ∀ s p v b, A.W s → A.step s = .goal p v → Q b →
      Q (if v < b.2 then (some p, v) else b))
    (hpick : ∀ (l : List σ) (s : σ) r, pick l = some (s, r) → l.Perm (s :: r)) :
    ∀ (fuel : Nat) (fr : List σ) (b : Option (List α) × Int) r,
      (∀ s ∈ fr, A.W s) → Q b →
      genLoop pick A.step fuel fr b = some (.ok r) → Q r := by
  intro fuel
  induction fuel with
  | zero => intro fr b r _ _ h; simp [genLoop] at h
  | succ f ih =>
    intro fr b r hall hb h
    rcases hp : pick fr with _ | ⟨s, rest⟩
    · have hgs : genStep1 pick A.step fr b = .done b := genStep1_none hp
      rw [genLoop_done f hgs] at h
      have hbr : RunRes.ok (α := α) b = .ok r := Option.some_inj.mp h
      injection hbr with hbr
      subst hbr
      exact hb
    · have hperm := hpick _ _ _ hp
      have hWs : A.W s := hall s (hperm.mem_iff.mpr (List.mem_cons_self ..))
      have hrest : ∀ t ∈ rest, A.W t := fun t ht =>
        hall t (hperm.mem_iff.mpr (List.mem_cons_of_mem _ ht))
      rcases hs : A.step s with _ | ⟨p, v⟩ | l
      · have hgs : genStep1 pick A.step fr b = .crash := by
          rw [genStep1_some hp, hs]
        rw [genLoop_crash f hgs] at h
        simp at h
      · have hgs : genStep1 pick A.step fr b
            = .next rest (if v < b.2 then (some p, v) else b) := by
          rw [genStep1_some hp, hs]
        rw [genLoop_next f hgs] at h
        exact ih rest _ r hrest (hupd s p v b hWs hs hb) h
      · have hgs : genStep1 pick A.step fr b = .next (rest ++ l) b := by
          rw [genStep1_some hp, hs]
        rw [genLoop_next f hgs] at h
        refine ih (rest ++ l) b r ?_ hb h
        intro t ht
        rcases List.mem_append.mp ht with htr | htl
        · exact hrest t htr
        · exact (A.hexp s l hWs hs).2.2 t htl

/-- Convenient form of termination: some fuel bound works for all larger
fuels. -/
theorem Alg.terminates {cities : List α} {d : α × α → Option Int} {σ : Type}
    (A : Alg cities d σ) {pick : List σ → Option (σ × List σ)}
    (hpick : ∀ (l : List σ) (s : σ) r, pick l = some (s, r) → l.Perm (s :: r))
    (hcr : ∀ s, A.W s → A.step s ≠ .crash) {s0 : σ} (hW0 : A.W s0)
    (b : Option (List α) × Int) :
    ∃ f₀, ∀ f, f₀ ≤ f →
      ∃ r, genLoop pick A.step f [s0] b = some (.ok r) := by
  obtain ⟨r, hr⟩ := A.term hpick hcr (A.M [s0] + 1) [s0] b
    (by intro s hs; rw [List.mem_singleton.mp hs]; exact hW0) (by omega)
  exact ⟨A.M [s0] + 1, fun f hf => ⟨r, genLoop_mono hr hf⟩⟩

/-! ### What `load_city_distances` produces -/

theorem loadInner_cons_none {row : List Int} {origin : α} {j : Nat} {dest : α}
    {rest : List (ℕ × α)} {dd : α × α → Option Int} (hj : row[j]? = none) :
    loadInner row origin ((j, dest) :: rest) dd = none := by
  simp only [loadInner]
  rw [hj]

theorem loadInner_cons_some {row : List Int} {origin : α} {j : Nat} {dest : α}
    {rest : List (ℕ × α)} {dd : α × α → Option Int} {w : Int}
    (hj : row[j]? = some w) :
    loadInner row origin ((j, dest) :: rest) dd
      = loadInner row origin rest (dictInsert dd (origin, dest) w) := by
  simp only [loadInner]
  rw [hj]

theorem dictInsert_isSome {dd : α × α → Option Int} {k k' : α × α} {v : Int}
    (h : (dd k').isSome) : ((dictInsert dd k v) k').isSome := by
  unfold dictInsert
  by_cases he : k' = k
  · rw [if_pos he]
    rfl
  · rw [if_neg he]
    exact h

theorem loadInner_spec {row : List Int} {origin : α} :
    ∀ (pairs : List (ℕ × α)) (dd d' : α × α → Option Int),
      loadInner row origin pairs dd = some d' →
      (∀ k, (dd k).isSome → (d' k).isSome) ∧
      (∀ jd ∈ pairs, (d' (origin, jd.2)).isSome) := by
  intro pairs
  induction pairs with
  | nil =>
    intro dd d' h
    have h' : some dd = some d' := h
    obtain rfl := Option.some_inj.mp h'
    exact ⟨fun k hk => hk, fun jd hjd => absurd hjd (List.not_mem_nil _)⟩
  | cons jd rest ih =>
    intro dd d' h
    obtain ⟨j, dest⟩ := jd
    rcases hj : row[j]? with _ | w
    · rw [loadInner_cons_none hj] at h
      exact absurd h (by simp)
    · rw [loadInner_cons_some hj] at h
      obtain ⟨hpres, hcov⟩ := ih _ _ h
      refine ⟨fun k hk => hpres k (dictInsert_isSome hk), ?_⟩
      intro p hp
      rcases List.mem_cons.mp hp with rfl | hmem
      · refine hpres _ ?_
        unfold dictInsert
        rw [if_pos rfl]
        rfl
      · exact hcov p hmem

theorem loadOuter_cons_none {cities : List α} {m : List (List Int)} {i : Nat}
    {origin : α} {rest : List (ℕ × α)} {dd : α × α → Option Int}
    (hi : m[i]? = none) :
    loadOuter cities m ((i, origin) :: rest) dd = none := by
  simp only [loadOuter]
  rw [hi]

theorem loadOuter_cons_some {cities : List α} {m : List (List Int)} {i : Nat}
    {origin : α} {rest : List (ℕ × α)} {dd : α × α → Option Int} {row : List Int}
    (hi : m[i]? = some row) :
    loadOuter cities m ((i, origin) :: rest) dd
      = match loadInner row origin cities.enum dd with
        | none => none
        | some d' => loadOuter cities m rest d' := by
  simp only [loadOuter]
  rw [hi]

theorem loadOuter_spec {cities : List α} {m : List (List Int)} :
    ∀ (pairs : List (ℕ × α)) (dd d' : α × α → Option Int),
      loadOuter cities m pairs dd = some d' →
      (∀ k, (dd k).isSome → (d' k).isSome) ∧
      (∀ io ∈ pairs, ∀ dest ∈ cities, (d' (io.2, dest)).isSome) := by
  intro pairs
  induction pairs with
  | nil =>
    intro dd d' h
    have h' : some dd = some d' := h
    obtain rfl := Option.some_inj.mp h'
    exact ⟨fun k hk => hk, fun io hio => absurd hio (List.not_mem_nil _)⟩
  | cons io rest ih =>
    intro dd d' h
    obtain ⟨i, origin⟩ := io
    rcases hi : m[i]? with _ | row
    · rw [loadOuter_cons_none hi] at h
      exact absurd h (by simp)
    · rw [loadOuter_cons_some hi] at h
      rcases hinner : loadInner row origin cities.enum dd with _ | d₁ <;>
        rw [hinner] at h
      · exact absurd h (by simp)
      · obtain ⟨hpres₁, hcov₁⟩ := loadInner_spec cities.enum dd d₁ hinner
        obtain ⟨hpres₂, hcov₂⟩ := ih d₁ d' h
        refine ⟨fun k hk => hpres₂ k (hpres₁ k hk), ?_⟩
        intro p hp dest hdest
        rcases List.mem_cons.mp hp with rfl | hmem
        · obtain ⟨jj, hjj⟩ := List.mem_iff_getElem?.mp hdest
          exact hpres₂ _
            (hcov₁ (jj, dest) (List.mk_mem_enum_iff_getElem?.mpr hjj))
        · exact hcov₂ p hmem dest hdest

/-- A successfully built dictionary covers every ordered pair of cities. -/
theorem load_total {cities : List α} {m : List (List Int)}
    {dfun : α × α → Option Int}
    (h : load_city_distances cities m = some dfun) : Total dfun cities := by
  have h' : loadOuter cities m cities.enum (fun _ => none) = some dfun := h
  have hspec := loadOuter_spec cities.enum (fun _ => none) dfun h'
  intro a ha b hb
  obtain ⟨i, hi⟩ := List.mem_iff_getElem?.mp ha
  exact hspec.2 (i, a) (List.mk_mem_enum_iff_getElem?.mpr hi) b hb

theorem loadInner_some {row : List Int} {origin : α} :
    ∀ (pairs : List (ℕ × α)) (dd : α × α → Option Int),
      (∀ jd ∈ pairs, jd.1 < row.length) →
      ∃ d', loadInner row origin pairs dd = some d' := by
  intro pairs
  induction pairs with
  | nil => exact fun dd _ => ⟨dd, rfl⟩
  | cons jd rest ih =>
    intro dd hlt
    obtain ⟨j, dest⟩ := jd
    have hjlt : j < row.length := hlt (j, dest) (List.mem_cons_self ..)
    obtain ⟨w, hj⟩ : ∃ w, row[j]? = some w := by
      rw [List.getElem?_eq_getElem hjlt]
      exact ⟨_, rfl⟩
    obtain ⟨d', hd'⟩ := ih (dictInsert dd (origin, dest) w)
      (fun p hp => hlt p (List.mem_cons_of_mem _ hp))
    exact ⟨d', by rw [loadInner_cons_some hj]; exact hd'⟩

theorem loadOuter_some {cities : List α} {m : List (List Int)} :
    ∀ (pairs : List (ℕ × α)) (dd : α × α → Option Int),
      (∀ io ∈ pairs, ∃ row, m[io.1]? = some row ∧ cities.length ≤ row.length) →
      ∃ d', loadOuter cities m pairs dd = some d' := by
  intro pairs
  induction pairs with
  | nil => exact fun dd _ => ⟨dd, rfl⟩
  | cons io rest ih =>
    intro dd hrows
    obtain ⟨i, origin⟩ := io
    obtain ⟨row, hi, hrlen⟩ := hrows (i, origin) (List.mem_cons_self ..)
    obtain ⟨d₁, hd₁⟩ : ∃ d₁, loadInner row origin cities.enum dd = some d₁ :=
      loadInner_some cities.enum dd
        (fun jd hjd => by
          obtain ⟨j, dest⟩ := jd
          have hj := (List.mem_enum hjd).1
          show j < row.length
          omega)
    obtain ⟨d', hd'⟩ := ih d₁ (fun p hp => hrows p (List.mem_cons_of_mem _ hp))
    refine ⟨d', ?_⟩
    rw [loadOuter_cons_some hi, hd₁]
    exact hd'

/-- `load_city_distances` succeeds whenever the matrix has an entry at every
index pair below the city count — regardless of squareness, extra rows or
columns, or the sign of the weights. -/
theorem load_isSome {cities : List α} {m : List (List Int)}
    (hm : ∀ i < cities.length, ∃ row, m[i]? = some row ∧
      cities.length ≤ row.length) :
    ∃ dfun, load_city_distances cities m = some dfun ∧ Total dfun cities := by
  obtain ⟨dfun, hd⟩ : ∃ dfun,
      loadOuter cities m cities.enum (fun _ => none) = some dfun :=
    loadOuter_some cities.enum (fun _ => none)
      (fun io hio => by
        obtain ⟨i, origin⟩ := io
        exact hm i (List.mem_enum hio).1)
  exact ⟨dfun, hd, load_total hd⟩

/-! ### Degenerate one-city inputs -/

theorem one_city_tour_iff {c : α} {T : List α} :
    IsTour [c] T ↔ T = [c, c] := by
  constructor
  · rintro ⟨hhd, hlast, hperm⟩
    have hdl : T.dropLast = [c] := List.perm_singleton.mp hperm
    have hTne : T ≠ [] := by
      intro hc
      rw [hc] at hdl
      simp at hdl
    have hTeq : T = [c] ++ [T.getLast hTne] := by
      rw [← hdl]
      exact (List.dropLast_append_getLast hTne).symm
    have hlast' : T.getLast? = some c := by
      rw [hlast, hhd]
      rfl
    rw [List.getLast?_eq_getLast _ hTne] at hlast'
    rw [hTeq, Option.some_inj.mp hlast']
    rfl
  · rintro rfl
    refine ⟨rfl, rfl, ?_⟩
    simp

theorem total_one_city {c : α} {d : α × α → Option Int} {w : Int}
    (hw : d (c, c) = some w) : Total d [c] := by
  intro a ha b hb
  rw [List.mem_singleton.mp ha, List.mem_singleton.mp hb, hw]
  rfl

/-! ### Pop order of the uniform-cost frontier -/

theorem ucsLtB_true_le {a b : Int × List α} (h : ucsLtB a b = true) :
    a.1 ≤ b.1 := by
  unfold ucsLtB at h
  by_cases h1 : a.1 < b.1
  · exact le_of_lt h1
  · rw [if_neg h1] at h
    by_cases h2 : b.1 < a.1
    · rw [if_pos h2] at h
      exact absurd h (by simp)
    · exact le_of_not_lt h2

theorem ucsLtB_false_le {a b : Int × List α} (h : ucsLtB a b = false) :
    b.1 ≤ a.1 := by
  unfold ucsLtB at h
  by_cases h1 : a.1 < b.1
  · rw [if_pos h1] at h
    exact absurd h (by simp)
  · exact le_of_not_lt h1

/-- `heappop` on the uniform-cost frontier removes a least bottleneck. -/
theorem ucs_popMin_key {l : List (Int × List α)} {s : Int × List α}
    {r : List (Int × List α)} (h : popMinBy ucsLtB l = some (s, r)) :
    ∀ y ∈ l, s.1 ≤ y.1 :=
  popMinBy_key_le Prod.fst (fun a b hab => ucsLtB_true_le hab)
    (fun a b hab => ucsLtB_false_le hab) h

theorem ucs_expand_cons_if {cities : List α} {d : α × α → Option Int} {c : α}
    {path : List α} {mj : Int} {next : α} {more : List α} {w : Int}
    (hcnd : next ∉ path ∨
      (cities.head? = some next ∧ path.dedup.length = cities.length))
    (hw : d (c, next) = some w) :
    ucs_expand cities d c path mj (next :: more)
      = if ¬(cities.head? = some next ∧ path.dedup.length < cities.length) then
          (ucs_expand cities d c path mj more).map
            (fun l => (max mj w, path ++ [next]) :: l)
        else ucs_expand cities d c path mj more := by
  simp only [ucs_expand]
  rw [if_pos hcnd, hw]

/-- Every successor of a state carries a bottleneck at least its parent's. -/
theorem ucs_expand_key_ge {cities : List α} {d : α × α → Option Int} {c : α}
    {path : List α} {mj : Int} :
    ∀ (cs : List α) (l : List (Int × List α)),
      ucs_expand cities d c path mj cs = some l → ∀ e ∈ l, mj ≤ e.1 := by
  intro cs
  induction cs with
  | nil =>
    intro l h e he
    have h' : some ([] : List (Int × List α)) = some l := h
    rw [← Option.some_inj.mp h'] at he
    cases he
  | cons next more ih =>
    intro l h e he
    by_cases hcnd : (next ∉ path ∨
        (cities.head? = some next ∧ path.dedup.length = cities.length))
    · rcases hw : d (c, next) with _ | w
      · rw [ucs_expand_cons_none hcnd hw] at h
        exact absurd h (by simp)
      · rw [ucs_expand_cons_if hcnd hw] at h
        by_cases hg : ¬(cities.head? = some next ∧
            path.dedup.length < cities.length)
        · rw [if_pos hg] at h
          rcases hr : ucs_expand cities d c path mj more with _ | l' <;>
            rw [hr] at h
          · exact absurd h (by simp)
          · have h' : some ((max mj w, path ++ [next]) :: l') = some l := h
            rw [← Option.some_inj.mp h'] at he
            rcases List.mem_cons.mp he with rfl | hmem
            · exact le_max_left _ _
            · exact ih l' hr e hmem
        · rw [if_neg hg] at h
          exact ih l h e he
    · rw [ucs_expand_cons_neg hcnd] at h
      exact ih l h e he

theorem ucs_step_nolast {cities : List α} {d : α × α → Option Int}
    {mj : Int} {path : List α} (hg : path.getLast? = none) :
    ucs_step cities d (mj, path) = .crash := by
  simp only [ucs_step]
  rw [hg]

theorem ucs_step_goal_val {cities : List α} {d : α × α → Option Int}
    {mj v : Int} {path p : List α}
    (h : ucs_step cities d (mj, path) = .goal p v) : p = path ∧ v = mj := by
  rcases hg : path.getLast? with _ | c
  · rw [ucs_step_nolast hg] at h
    exact absurd h (by simp)
  · rw [ucs_step_some hg] at h
    by_cases hc : (1 < path.length ∧ path.getLast? = cities.head? ∧
        path.dropLast.dedup.length = cities.length)
    · rw [if_pos hc] at h
      have h' : StepR.goal (σ := Int × List α) path mj = .goal p v := h
      injection h' with h1 h2
      exact ⟨h1.symm, h2.symm⟩
    · rw [if_neg hc] at h
      rcases hr : ucs_expand cities d c path mj cities with _ | l' <;>
        rw [hr] at h
      · exact absurd
          (show StepR.crash (σ := Int × List α) (α := α) = .goal p v from h)
          (by simp)
      · exact absurd
          (show StepR.expand (α := α) l' = .goal p v from h) (by simp)

theorem ucs_step_expand_val {cities : List α} {d : α × α → Option Int}
    {mj : Int} {path : List α} {l : List (Int × List α)}
    (h : ucs_step cities d (mj, path) = .expand l) :
    ∃ c, path.getLast? = some c ∧ ucs_expand cities d c path mj cities = some l := by
  rcases hg : path.getLast? with _ | c
  · rw [ucs_step_nolast hg] at h
    exact absurd h (by simp)
  · rw [ucs_step_some hg] at h
    by_cases hc : (1 < path.length ∧ path.getLast? = cities.head? ∧
        path.dropLast.dedup.length = cities.length)
    · rw [if_pos hc] at h
      exact absurd
        (show StepR.goal (σ := Int × List α) path mj = .expand l from h)
        (by simp)
    · rw [if_neg hc] at h
      rcases hr : ucs_expand cities d c path mj cities with _ | l' <;>
        rw [hr] at h
      · exact absurd
          (show StepR.crash (σ := Int × List α) (α := α) = .expand l from h)
          (by simp)
      · have h' : StepR.expand (α := α) l' = .expand l := h
        injection h' with h1
        exact ⟨c, rfl, hr.trans (congrArg some h1)⟩

theorem genTrace_crash {σ : Type} {pick : List σ → Option (σ × List σ)}
    {step : σ → StepR σ α} {fr rest : List σ} {s : σ}
    (f : Nat) (hp : pick fr = some (s, rest)) (hs : step s = .crash) :
    genTrace pick step (f + 1) fr = [] := by
  rw [genTrace_some f hp, hs]

theorem ucs_trace_bound {cities : List α} {d : α × α → Option Int} :
    ∀ (fuel : Nat) (fr : List (Int × List α)) (b : Int),
      (∀ e ∈ fr, b ≤ e.1) →
      ∀ v ∈ genTrace (popMinBy ucsLtB) (ucs_step cities d) fuel fr, b ≤ v := by
  intro fuel
  induction fuel with
  | zero => intro fr b _ v hv; simp [genTrace] at hv
  | succ f ih =>
    intro fr b hb v hv
    rcases hp : popMinBy ucsLtB fr with _ | ⟨s, rest⟩
    · rw [genTrace_none f hp] at hv
      cases hv
    · have hperm := popMinBy_perm hp
      have hrest : ∀ e ∈ rest, b ≤ e.1 := fun e he =>
        hb e (hperm.mem_iff.mpr (List.mem_cons_of_mem _ he))
      have hsb : b ≤ s.1 := hb s (hperm.mem_iff.mpr (List.mem_cons_self ..))
      rcases hs : ucs_step cities d s with _ | ⟨p, vv⟩ | l
      · rw [genTrace_crash f hp hs] at hv
        cases hv
      · obtain ⟨-, rfl⟩ := ucs_step_goal_val hs
        rw [genTrace_goal f hp hs] at hv
        rcases List.mem_cons.mp hv with rfl | hmem
        · exact hsb
        · exact ih rest b hrest v hmem
      · rw [genTrace_expand f hp hs] at hv
        refine ih (rest ++ l) b ?_ v hv
        intro e he
        rcases List.mem_append.mp he with her | hel
        · exact hrest e her
        · obtain ⟨c, -, hexp⟩ := ucs_step_expand_val hs
          exact le_trans hsb (ucs_expand_key_ge cities l hexp e hel)

/-- The popped goal bottlenecks of the uniform-cost search are nondecreasing
in pop order. -/
theorem ucs_trace_sorted {cities : List α} {d : α × α → Option Int} :
    ∀ (fuel : Nat) (fr : List (Int × List α)),
      List.Pairwise (· ≤ ·)
        (genTrace (popMinBy ucsLtB) (ucs_step cities d) fuel fr) := by
  intro fuel
  induction fuel with
  | zero => intro fr; simp [genTrace]
  | succ f ih =>
    intro fr
    rcases hp : popMinBy ucsLtB fr with _ | ⟨s, rest⟩
    · rw [genTrace_none f hp]
      exact List.Pairwise.nil
    · have hperm := popMinBy_perm hp
      rcases hs : ucs_step cities d s with _ | ⟨p, vv⟩ | l
      · rw [genTrace_crash f hp hs]
        exact List.Pairwise.nil
      · obtain ⟨-, rfl⟩ := ucs_step_goal_val hs
        rw [genTrace_goal f hp hs]
        refine List.pairwise_cons.mpr ⟨?_, ih rest⟩
        refine ucs_trace_bound f rest s.1 ?_
        intro e he
        exact ucs_popMin_key hp e (hperm.mem_iff.mpr (List.mem_cons_of_mem _ he))
      · rw [genTrace_expand f hp hs]
        exact ih (rest ++ l)

/-- The popped goal bottlenecks of the uniform-cost run, from its own
initial frontier (a proof artefact, not part of the source). -/
def ucs_goalTrace (cities : List α) (d : α × α → Option Int) (fuel : Nat) :
    List Int :=
  match cities.head? with
  | none => []
  | some c0 => genTrace (popMinBy ucsLtB) (ucs_step cities d) fuel [(0, [c0])]

theorem ucs_goalTrace_some {cities : List α} {d : α × α → Option Int}
    {fuel : Nat} {c0 : α} (hc0 : cities.head? = some c0) :
    ucs_goalTrace cities d fuel
      = genTrace (popMinBy ucsLtB) (ucs_step cities d) fuel [(0, [c0])] := by
  simp only [ucs_goalTrace]
  rw [hc0]

/-! ### What the informed module actually pushes -/

/-- Modelled from the spec (§4.5, informed row): `g` is "the sum of edges
taken so far" along a path.  This definition follows the specification's
words; the source never computes it, which is what claim C8 is about. -/
def gSum (d : α × α → Option Int) : List α → Int
  | [] => 0
  | [_] => 0
  | a :: b :: rest => (d (a, b)).getD 0 + gSum d (b :: rest)

theorem astar_expand_lookups {cities : List α} {d : α × α → Option Int}
    {cost : Int} {c : α} {path : List α} {mj : Int} {remaining : List α} :
    ∀ (cs : List α) (l : List (Int × List α × Int)),
      astar_expand cities d cost c path mj remaining cs = some l →
      ∀ next ∈ cs, ∃ w h, d (c, next) = some w ∧
        heuristicM d remaining next = some h := by
  intro cs
  induction cs with
  | nil => intro l _ next hnext; cases hnext
  | cons x more ih =>
    intro l h next hnext
    rcases hw : d (c, x) with _ | w
    · rw [astar_expand_cons_none hw] at h
      exact absurd h (by simp)
    · rcases hh : heuristicM d remaining x with _ | hv
      · rw [astar_expand_cons_noh hw hh] at h
        exact absurd h (by simp)
      · rw [astar_expand_cons_pos hw hh] at h
        rcases hr : astar_expand cities d cost c path mj remaining more
            with _ | l'
        · rw [hr] at h
          exact absurd h (by simp)
        · rcases List.mem_cons.mp hnext with rfl | hmem
          · exact ⟨w, hv, hw, hh⟩
          · exact ih l' hr next hmem

/-- The returned record is either the untouched initial one or a tour
together with its bottleneck. -/
theorem Alg.result_tour {cities : List α} {d : α × α → Option Int} {σ : Type}
    (A : Alg cities d σ) {pick : List σ → Option (σ × List σ)}
    (hpick : ∀ (l : List σ) (s : σ) r, pick l = some (s, r) → l.Perm (s :: r))
    {s0 : σ} (hW0 : A.W s0) {fuel : Nat} {r : Option (List α) × Int}
    (hrun : genLoop pick A.step fuel [s0] (none, maxsize) = some (.ok r)) :
    (r.1 = none ∧ r.2 = maxsize) ∨
      (∃ p, r.1 = some p ∧ IsTour cities p ∧ r.2 = pathMax d p) := by
  refine A.best_inv_gen
    (fun b => (b.1 = none ∧ b.2 = maxsize) ∨
      (∃ p, b.1 = some p ∧ IsTour cities p ∧ b.2 = pathMax d p))
    ?_ hpick fuel [s0] (none, maxsize) r
    (by intro s hs; rw [List.mem_singleton.mp hs]; exact hW0)
    (Or.inl ⟨rfl, rfl⟩) hrun
  intro s p v b hWs hs hb
  by_cases hvb : v < b.2
  · rw [if_pos hvb]
    obtain ⟨hcl, rfl, rfl⟩ := A.hgoal_inv s p v hWs hs
    exact Or.inr ⟨A.pathOf s, rfl, closed_isTour (A.hW s hWs) hcl,
      (A.hW s hWs).bn⟩
  · rw [if_neg hvb]
    exact hb

/-! ### The keys popped by the uniform-cost loop, in pop order -/

def ucs_popAux (cities : List α) (d : α × α → Option Int) :
    Nat → List (Int × List α) → List Int
  | 0, _ => []
  | fuel + 1, fr =>
    match popMinBy ucsLtB fr with
    | none => []
    | some (s, rest) =>
      s.1 ::
        match ucs_step cities d s with
        | .crash => []
        | .goal _ _ => ucs_popAux cities d fuel rest
        | .expand l => ucs_popAux cities d fuel (rest ++ l)

theorem ucs_popAux_none {cities : List α} {d : α × α → Option Int}
    {fr : List (Int × List α)} (f : Nat) (hp : popMinBy ucsLtB fr = none) :
    ucs_popAux cities d (f + 1) fr = [] := by
  simp only [ucs_popAux]
  rw [hp]

theorem ucs_popAux_some {cities : List α} {d : α × α → Option Int}
    {fr rest : List (Int × List α)} {s : Int × List α}
    (f : Nat) (hp : popMinBy ucsLtB fr = some (s, rest)) :
    ucs_popAux cities d (f + 1) fr
      = s.1 ::
          match ucs_step cities d s with
          | .crash => []
          | .goal _ _ => ucs_popAux cities d f rest
          | .expand l => ucs_popAux cities d f (rest ++ l) := by
  simp only [ucs_popAux]
  rw [hp]

theorem ucs_popAux_bound {cities : List α} {d : α × α → Option Int} :
    ∀ (fuel : Nat) (fr : List (Int × List α)) (b : Int),
      (∀ e ∈ fr, b ≤ e.1) →
      ∀ v ∈ ucs_popAux cities d fuel fr, b ≤ v := by
  intro fuel
  induction fuel with
  | zero => intro fr b _ v hv; simp [ucs_popAux] at hv
  | succ f ih =>
    intro fr b hb v hv
    rcases hp : popMinBy ucsLtB fr with _ | ⟨s, rest⟩
    · rw [ucs_popAux_none f hp] at hv
      cases hv
    · have hperm := popMinBy_perm hp
      have hrest : ∀ e ∈ rest, b ≤ e.1 := fun e he =>
        hb e (hperm.mem_iff.mpr (List.mem_cons_of_mem _ he))
      have hsb : b ≤ s.1 := hb s (hperm.mem_iff.mpr (List.mem_cons_self ..))
      rw [ucs_popAux_some f hp] at hv
      rcases List.mem_cons.mp hv with rfl | hmem
      · exact hsb
      · rcases hs : ucs_step cities d s with _ | ⟨p, vv⟩ | l <;>
          rw [hs] at hmem
        · exact absurd (show v ∈ ([] : List Int) from hmem) (by simp)
        · exact ih rest b hrest v
            (show v ∈ ucs_popAux cities d f rest from hmem)
        · refine ih (rest ++ l) b ?_ v
            (show v ∈ ucs_popAux cities d f (rest ++ l) from hmem)
          intro e he
          rcases List.mem_append.mp he with her | hel
          · exact hrest e her
          · obtain ⟨c, -, hexp⟩ := ucs_step_expand_val hs
            exact le_trans hsb (ucs_expand_key_ge cities l hexp e hel)

theorem ucs_popAux_sorted {cities : List α} {d : α × α → Option Int} :
    ∀ (fuel : Nat) (fr : List (Int × List α)),
      List.Pairwise (· ≤ ·) (ucs_popAux cities d fuel fr) := by
  intro fuel
  induction fuel with
  | zero => intro fr; simp [ucs_popAux]
  | succ f ih =>
    intro fr
    rcases hp : popMinBy ucsLtB fr with _ | ⟨s, rest⟩
    · rw [ucs_popAux_none f hp]
      exact List.Pairwise.nil
    · have hperm := popMinBy_perm hp
      have hmin : ∀ e ∈ rest, s.1 ≤ e.1 := fun e he =>
        ucs_popMin_key hp e (hperm.mem_iff.mpr (List.mem_cons_of_mem _ he))
      rw [ucs_popAux_some f hp]
      rcases hs : ucs_step cities d s with _ | ⟨p, vv⟩ | l
      · show List.Pairwise (· ≤ ·) (s.1 :: [])
        exact List.pairwise_cons.mpr ⟨fun y hy => absurd hy (by simp),
          List.Pairwise.nil⟩
      · show List.Pairwise (· ≤ ·) (s.1 :: ucs_popAux cities d f rest)
        refine List.pairwise_cons.mpr ⟨?_, ih rest⟩
        exact ucs_popAux_bound f rest s.1 hmin
      · show List.Pairwise (· ≤ ·) (s.1 :: ucs_popAux cities d f (rest ++ l))
        refine List.pairwise_cons.mpr ⟨?_, ih (rest ++ l)⟩
        refine ucs_popAux_bound f (rest ++ l) s.1 ?_
        intro e he
        rcases List.mem_append.mp he with her | hel
        · exact hmin e her
        · obtain ⟨c, -, hexp⟩ := ucs_step_expand_val hs
          exact ucs_expand_key_ge cities l hexp e hel

/-- The running bottlenecks of all states popped by the uniform-cost
`solve`, in pop order (a proof artefact, not part of the source). -/
def ucs_keyTrace (cities : List α) (d : α × α → Option Int) (fuel : Nat) :
    List Int :=
  match cities.head? with
  | none => []
  | some c0 => ucs_popAux cities d fuel [(0, [c0])]

theorem ucs_keyTrace_sorted (cities : List α) (d : α × α → Option Int)
    (fuel : Nat) : List.Pairwise (· ≤ ·) (ucs_keyTrace cities d fuel) := by
  rcases hc0 : cities.head? with _ | c0 <;> simp only [ucs_keyTrace] <;> rw [hc0]
  · exact List.Pairwise.nil
  · exact ucs_popAux_sorted fuel _

/-! ### Concrete instances used to exercise the theorems -/

/-- The dictionary built from a 2-city unit matrix. -/
def dEx2 : ℕ × ℕ → Option Int :=
  match load_city_distances [0, 1] [[0, 1], [1, 0]] with
  | some d => d
  | none => fun _ => none

/-- A 3-city table with all off-diagonal weights `1`. -/
def dEx3 : ℕ × ℕ → Option Int := fun p =>
  if p.1 < 3 ∧ p.2 < 3 then some (if p.1 = p.2 then 0 else 1) else none

/-- A 2-city table whose single jump weighs `2^63`, one more than
`sys.maxsize`. -/
def dBig : ℕ × ℕ → Option Int := fun p =>
  if p.1 < 2 ∧ p.2 < 2 then
    (if p.1 = p.2 then some 0 else some 9223372036854775808)
  else none

/-! ## The claims -/

theorem dEx2_total : Total dEx2 [0, 1] := by
  intro a ha b hb
  fin_cases ha <;> fin_cases hb <;> rfl

theorem dEx3_total : Total dEx3 [0, 1, 2] := by
  intro a ha b hb
  fin_cases ha <;> fin_cases hb <;> rfl

theorem dBig_total : Total dBig [0, 1] := by
  intro a ha b hb
  fin_cases ha <;> fin_cases hb <;> rfl

/-- C1: for every duplicate-free location list of at least 2 locations and
square non-negative matrix supplied identically to all three strategies,
whenever the three `solve` functions return, the bottleneck value they
return is identical — even though the returned path sequences may differ
among tied-optimal tours. -/
theorem C1_cross_strategy_bottleneck_eq {cities : List α} {m : List (List Int)}
    {dfun : α × α → Option Int}
    (hn : cities.Nodup) (h2 : 2 ≤ cities.length)
    (hsq1 : m.length = cities.length)
    (hsq2 : ∀ row ∈ m, row.length = cities.length)
    (hnn : ∀ row ∈ m, ∀ x ∈ row, 0 ≤ x)
    (hload : load_city_distances cities m = some dfun)
    {f₁ f₂ f₃ : Nat} {p₁ p₂ p₃ : Option (List α)} {v₁ v₂ v₃ : Int}
    (h₁ : bfs_tsp cities dfun f₁ = some (.ok (p₁, v₁)))
    (h₂ : ucs_tsp cities dfun f₂ = some (.ok (p₂, v₂)))
    (h₃ : astar_tsp cities dfun f₃ = some (.ok (p₃, v₃))) :
    v₁ = v₂ ∧ v₂ = v₃ := by
  have htot : Total dfun cities := load_total hload
  exact ⟨opt_unique (bfs_opt hn htot h₁) (ucs_opt hn htot h₂),
    opt_unique (ucs_opt hn htot h₂) (astar_opt hn htot h₃)⟩

theorem C1_witness :
    load_city_distances [0, 1] [[0, 1], [1, 0]] = some dEx2 ∧
    bfs_tsp [0, 1] dEx2 20 = some (.ok (some [0, 1, 0], 1)) ∧
    ucs_tsp [0, 1] dEx2 20 = some (.ok (some [0, 1, 0], 1)) ∧
    astar_tsp [0, 1] dEx2 20 = some (.ok (some [0, 1, 0], 1)) ∧
    ((1 : Int) = 1 ∧ (1 : Int) = 1) :=
  ⟨rfl, rfl, rfl, rfl,
    @C1_cross_strategy_bottleneck_eq ℕ _ [0, 1] [[0, 1], [1, 0]] dEx2
      (by decide) (by decide) (by decide) (by decide) (by decide) rfl
      20 20 20 (some [0, 1, 0]) (some [0, 1, 0]) (some [0, 1, 0]) 1 1 1
      rfl rfl rfl⟩

/-- C2: for every duplicate-free location list and total distance table, the
bottleneck returned by each of the three `solve` functions is at most the
bottleneck (maximum consecutive-pair edge weight) of every complete
Hamiltonian cycle over the locations that starts and ends at
`locations[0]`. -/
theorem C2_returned_le_every_tour {cities : List α} {d : α × α → Option Int}
    (hn : cities.Nodup) (htot : Total d cities) {T : List α}
    (hT : IsTour cities T) :
    (∀ (fuel : Nat) (p : Option (List α)) (v : Int),
      bfs_tsp cities d fuel = some (.ok (p, v)) → v ≤ pathMax d T) ∧
    (∀ (fuel : Nat) (p : Option (List α)) (v : Int),
      ucs_tsp cities d fuel = some (.ok (p, v)) → v ≤ pathMax d T) ∧
    (∀ (fuel : Nat) (p : Option (List α)) (v : Int),
      astar_tsp cities d fuel = some (.ok (p, v)) → v ≤ pathMax d T) :=
  ⟨fun _ _ _ h => (bfs_opt hn htot h).1 T hT,
    fun _ _ _ h => (ucs_opt hn htot h).1 T hT,
    fun _ _ _ h => (astar_opt hn htot h).1 T hT⟩

theorem C2_witness :
    IsTour [0, 1] [0, 1, 0] ∧ (1 : Int) ≤ pathMax dEx2 [0, 1, 0] :=

  ⟨⟨rfl, rfl, List.Perm.refl _⟩,
    (@C2_returned_le_every_tour ℕ _ [0, 1] dEx2 (by decide) dEx2_total
      [0, 1, 0] ⟨rfl, rfl, List.Perm.refl _⟩).1 20 (some [0, 1, 0]) 1 rfl⟩

/-- C3: for every nonempty location list and total distance table, each of
the three `solve` functions terminates: with enough fuel the loop drains
its frontier and returns normally. -/
theorem C3_search_terminates {cities : List α} {d : α × α → Option Int}
    (hne : cities ≠ []) (htot : Total d cities) :
    (∃ f₀, ∀ f, f₀ ≤ f → ∃ r, bfs_tsp cities d f = some (.ok r)) ∧
    (∃ f₀, ∀ f, f₀ ≤ f → ∃ r, ucs_tsp cities d f = some (.ok r)) ∧
    (∃ f₀, ∀ f, f₀ ≤ f → ∃ r, astar_tsp cities d f = some (.ok r)) := by
  obtain ⟨c0, hc0⟩ : ∃ c0, cities.head? = some c0 := by
    cases cities with
    | nil => exact absurd rfl hne
    | cons a as => exact ⟨a, rfl⟩
  refine ⟨?_, ?_, ?_⟩
  · obtain ⟨f₀, hf⟩ := (bfsAlg cities d).terminates
      (fun l s r h => bfs_pick_perm h) (bfsAlg_no_crash htot)
      (show (bfsAlg cities d).W (c0, [c0], 0) from ⟨wfpath_init hc0, rfl⟩)
      (none, maxsize)
    refine ⟨f₀, fun f hff => ?_⟩
    rw [bfs_tsp_some hc0]
    exact hf f hff
  · obtain ⟨f₀, hf⟩ := (ucsAlg cities d).terminates
      (fun l s r h => popMinBy_perm h) (ucsAlg_no_crash htot)
      (show (ucsAlg cities d).W ((0 : Int), [c0]) from wfpath_init hc0)
      (none, maxsize)
    refine ⟨f₀, fun f hff => ?_⟩
    rw [ucs_tsp_some hc0]
    exact hf f hff
  · obtain ⟨f₀, hf⟩ := (astarAlg cities d).terminates
      (fun l s r h => popMinBy_perm h) (astarAlg_no_crash htot)
      (show (astarAlg cities d).W ((0 : Int), [c0], (0 : Int)) from
        wfpath_init hc0)
      (none, maxsize)
    refine ⟨f₀, fun f hff => ?_⟩
    rw [astar_tsp_some hc0]
    exact hf f hff

theorem C3_witness :
    ([0, 1] : List ℕ) ≠ [] ∧
    (∃ f₀, ∀ f, f₀ ≤ f → ∃ r, bfs_tsp [0, 1] dEx2 f = some (.ok r)) :=
  ⟨by decide, (@C3_search_terminates ℕ _ [0, 1] dEx2 (by decide) dEx2_total).1⟩

/-- C4: whenever any of the three `solve` functions returns a non-`None`
sequence, folding `max` over the distance-table lookups of its consecutive
pairs reproduces exactly the returned bottleneck; more generally every
state in every reachable frontier carries a bottleneck equal to the maximum
edge weight of its sequence (`pathMax`, which is `0` on singletons). -/
theorem C4_bottleneck_matches_sequence {cities : List α}
    {d : α × α → Option Int} {c0 : α} (hc0 : cities.head? = some c0) :
    ((∀ (fuel : Nat) (p : Option (List α)) (v : Int) (q : List α),
        bfs_tsp cities d fuel = some (.ok (p, v)) → p = some q →
        v = pathMax d q) ∧
      ∀ cfg, GReach bfs_pick (bfs_step cities d)
          ([(c0, [c0], 0)], (none, maxsize)) cfg →
        ∀ c path mj, (c, path, mj) ∈ cfg.1 → mj = pathMax d path) ∧
    ((∀ (fuel : Nat) (p : Option (List α)) (v : Int) (q : List α),
        ucs_tsp cities d fuel = some (.ok (p, v)) → p = some q →
        v = pathMax d q) ∧
      ∀ cfg, GReach (popMinBy ucsLtB) (ucs_step cities d)
          ([(0, [c0])], (none, maxsize)) cfg →
        ∀ mj path, (mj, path) ∈ cfg.1 → mj = pathMax d path) ∧
    ((∀ (fuel : Nat) (p : Option (List α)) (v : Int) (q : List α),
        astar_tsp cities d fuel = some (.ok (p, v)) → p = some q →
        v = pathMax d q) ∧
      ∀ cfg, GReach (popMinBy astarLtB) (astar_step cities d)
          ([(0, [c0], 0)], (none, maxsize)) cfg →
        ∀ cost path mj, (cost, path, mj) ∈ cfg.1 → mj = pathMax d path) := by
  refine ⟨⟨?_, ?_⟩, ⟨?_, ?_⟩, ⟨?_, ?_⟩⟩
  · intro fuel p v q hrun hq
    rw [bfs_tsp_some hc0] at hrun
    refine (bfsAlg cities d).best_inv (fun pp vv => vv = pathMax d pp)
      ?_ (fun l s r h => bfs_pick_perm h) fuel _ _ (p, v)
      (by intro s hs; rw [List.mem_singleton.mp hs]
          exact ⟨wfpath_init hc0, rfl⟩)
      (by intro pp hpp; simp at hpp) hrun q hq
    intro s pp vv hW hstep
    obtain ⟨-, h1, h2⟩ := (bfsAlg cities d).hgoal_inv s pp vv hW hstep
    rw [h1, h2]
    exact ((bfsAlg cities d).hW s hW).bn
  · intro cfg hreach c path mj hmem
    exact (((bfsAlg cities d).reach_W (fun l s r h => bfs_pick_perm h) hreach
      (by intro s hs; rw [List.mem_singleton.mp hs]
          exact ⟨wfpath_init hc0, rfl⟩) (c, path, mj) hmem).1).bn
  · intro fuel p v q hrun hq
    rw [ucs_tsp_some hc0] at hrun
    refine (ucsAlg cities d).best_inv (fun pp vv => vv = pathMax d pp)
      ?_ (fun l s r h => popMinBy_perm h) fuel _ _ (p, v)
      (by intro s hs; rw [List.mem_singleton.mp hs]; exact wfpath_init hc0)
      (by intro pp hpp; simp at hpp) hrun q hq
    intro s pp vv hW hstep
    obtain ⟨-, h1, h2⟩ := (ucsAlg cities d).hgoal_inv s pp vv hW hstep
    rw [h1, h2]
    exact ((ucsAlg cities d).hW s hW).bn
  · intro cfg hreach mj path hmem
    exact ((ucsAlg cities d).reach_W (fun l s r h => popMinBy_perm h) hreach
      (by intro s hs; rw [List.mem_singleton.mp hs]; exact wfpath_init hc0)
      (mj, path) hmem).bn
  · intro fuel p v q hrun hq
    rw [astar_tsp_some hc0] at hrun
    refine (astarAlg cities d).best_inv (fun pp vv => vv = pathMax d pp)
      ?_ (fun l s r h => popMinBy_perm h) fuel _ _ (p, v)
      (by intro s hs; rw [List.mem_singleton.mp hs]; exact wfpath_init hc0)
      (by intro pp hpp; simp at hpp) hrun q hq
    intro s pp vv hW hstep
    obtain ⟨-, h1, h2⟩ := (astarAlg cities d).hgoal_inv s pp vv hW hstep
    rw [h1, h2]
    exact ((astarAlg cities d).hW s hW).bn
  · intro cfg hreach cost path mj hmem
    exact ((astarAlg cities d).reach_W (fun l s r h => popMinBy_perm h) hreach
      (by intro s hs; rw [List.mem_singleton.mp hs]; exact wfpath_init hc0)
      (cost, path, mj) hmem).bn

theorem C4_witness :
    bfs_tsp [0, 1] dEx2 20 = some (.ok (some [0, 1, 0], 1)) ∧
    (1 : Int) = pathMax dEx2 [0, 1, 0] :=
  ⟨rfl,
    (@C4_bottleneck_matches_sequence ℕ _ [0, 1] dEx2 0 rfl).1.1
      20 (some [0, 1, 0]) 1 [0, 1, 0] rfl rfl⟩

/-- C5: on every reachable state, each strategy's in-loop completeness check
agrees with the specification's goal test `CompleteSpec` (full length,
closing edge, first `len(locations)` entries the location set once each):
the popped state takes the compare-against-best branch exactly when it is
complete, the recorded pair is its own sequence and bottleneck, and a
complete state is never expanded. -/
theorem C5_goal_test_matches_spec {cities : List α} {d : α × α → Option Int}
    {c0 : α} (hc0 : cities.head? = some c0) :
    (∀ cfg, GReach bfs_pick (bfs_step cities d)
        ([(c0, [c0], 0)], (none, maxsize)) cfg →
      ∀ c path mj, (c, path, mj) ∈ cfg.1 →
        ((bfs_step cities d (c, path, mj) = .goal path mj) ↔
          CompleteSpec cities path) ∧
        (∀ p v, bfs_step cities d (c, path, mj) = .goal p v →
          p = path ∧ v = mj) ∧
        (∀ l, bfs_step cities d (c, path, mj) = .expand l →
          ¬ CompleteSpec cities path)) ∧
    (∀ cfg, GReach (popMinBy ucsLtB) (ucs_step cities d)
        ([(0, [c0])], (none, maxsize)) cfg →
      ∀ mj path, (mj, path) ∈ cfg.1 →
        ((ucs_step cities d (mj, path) = .goal path mj) ↔
          CompleteSpec cities path) ∧
        (∀ p v, ucs_step cities d (mj, path) = .goal p v →
          p = path ∧ v = mj) ∧
        (∀ l, ucs_step cities d (mj, path) = .expand l →
          ¬ CompleteSpec cities path)) ∧
    (∀ cfg, GReach (popMinBy astarLtB) (astar_step cities d)
        ([(0, [c0], 0)], (none, maxsize)) cfg →
      ∀ cost path mj, (cost, path, mj) ∈ cfg.1 →
        ((astar_step cities d (cost, path, mj) = .goal path mj) ↔
          CompleteSpec cities path) ∧
        (∀ p v, astar_step cities d (cost, path, mj) = .goal p v →
          p = path ∧ v = mj) ∧
        (∀ l, astar_step cities d (cost, path, mj) = .expand l →
          ¬ CompleteSpec cities path)) := by
  refine ⟨?_, ?_, ?_⟩
  · intro cfg hreach c path mj hmem
    have hW := (bfsAlg cities d).reach_W (fun l s r h => bfs_pick_perm h)
      hreach
      (by intro s hs; rw [List.mem_singleton.mp hs]
          exact ⟨wfpath_init hc0, rfl⟩) (c, path, mj) hmem
    have hwf := hW.1
    refine ⟨⟨?_, ?_⟩, ?_, ?_⟩
    · intro hstep
      exact (closed_iff_completeSpec hwf).mp
        ((closed_iff_lengthLast hwf).mp (bfs_step_goal_inv hstep).1)
    · intro hcs
      exact bfs_step_closed hwf ((closed_iff_completeSpec hwf).mpr hcs)
    · intro p v hstep
      obtain ⟨-, h1, h2⟩ := bfs_step_goal_inv hstep
      exact ⟨h1, h2⟩
    · intro l hstep hcs
      exact ((bfsAlg cities d).hexp (c, path, mj) l hW hstep).1
        ((closed_iff_completeSpec hwf).mpr hcs)
  · intro cfg hreach mj path hmem
    have hwf := (ucsAlg cities d).reach_W (fun l s r h => popMinBy_perm h)
      hreach
      (by intro s hs; rw [List.mem_singleton.mp hs]; exact wfpath_init hc0)
      (mj, path) hmem
    refine ⟨⟨?_, ?_⟩, ?_, ?_⟩
    · intro hstep
      exact (closed_iff_completeSpec hwf).mp (ucs_step_goal_inv hwf hstep).1
    · intro hcs
      exact ucs_step_closed hwf ((closed_iff_completeSpec hwf).mpr hcs)
    · intro p v hstep
      obtain ⟨-, h1, h2⟩ := ucs_step_goal_inv hwf hstep
      exact ⟨h1, h2⟩
    · intro l hstep hcs
      exact ((ucsAlg cities d).hexp (mj, path) l hwf hstep).1
        ((closed_iff_completeSpec hwf).mpr hcs)
  · intro cfg hreach cost path mj hmem
    have hwf := (astarAlg cities d).reach_W (fun l s r h => popMinBy_perm h)
      hreach
      (by intro s hs; rw [List.mem_singleton.mp hs]; exact wfpath_init hc0)
      (cost, path, mj) hmem
    refine ⟨⟨?_, ?_⟩, ?_, ?_⟩
    · intro hstep
      exact (closed_iff_completeSpec hwf).mp (astar_step_goal_inv hwf hstep).1
    · intro hcs
      exact astar_step_closed hwf ((closed_iff_completeSpec hwf).mpr hcs)
    · intro p v hstep
      obtain ⟨-, h1, h2⟩ := astar_step_goal_inv hwf hstep
      exact ⟨h1, h2⟩
    · intro l hstep hcs
      exact ((astarAlg cities d).hexp (cost, path, mj) l hwf hstep).1
        ((closed_iff_completeSpec hwf).mpr hcs)

theorem C5_witness :
    ([0, 1] : List ℕ).head? = some 0 ∧
    ((bfs_step [0, 1] dEx2 (0, [0], 0) = .goal [0] 0) ↔
      CompleteSpec [0, 1] [0]) :=
  ⟨rfl,
    ((@C5_goal_test_matches_spec ℕ _ [0, 1] dEx2 0 rfl).1 _
      Relation.ReflTransGen.refl 0 [0] 0 (by decide)).1⟩

/-- C6: counterexample — the table builder performs no validation at all: it
accepts a matrix with negative weights and a matrix whose dimensions
disagree with the location count, instead of failing with
`MalformedInput`. -/
theorem C6_counterexample :
    (load_city_distances [0, 1] [[0, -1], [-1, 0]]).isSome = true ∧
    ((-1 : Int) < 0) ∧
    (load_city_distances [0, 1] [[0, 1, 7], [2, 3, 8], [4, 5, 9]]).isSome
      = true ∧
    ([[0, 1, 7], [2, 3, 8], [4, 5, 9]] : List (List Int)).length
      ≠ ([0, 1] : List ℕ).length :=
  ⟨rfl, by decide, rfl, by decide⟩

/-- C6: amended — `load_city_distances` succeeds (returning a table that is
total on the locations) whenever every index pair below the location count
is present in the matrix, with no squareness or sign check; it only fails
on an out-of-range index access. -/
theorem C6_amended_no_validation {cities : List α} {m : List (List Int)}
    (hm : ∀ i < cities.length, ∃ row, m[i]? = some row ∧
      cities.length ≤ row.length) :
    ∃ dfun, load_city_distances cities m = some dfun ∧ Total dfun cities :=
  load_isSome hm

theorem C6_witness :
    (∀ i < ([0, 1] : List ℕ).length,
      ∃ row, ([[0, -1], [-1, 0]] : List (List Int))[i]? = some row ∧
        ([0, 1] : List ℕ).length ≤ row.length) ∧
    ∃ dfun, load_city_distances [0, 1] [[0, -1], [-1, 0]] = some dfun ∧
      Total dfun [0, 1] :=
  ⟨fun i hi => by
    match i, hi with
    | 0, _ => exact ⟨[0, -1], rfl, by decide⟩
    | 1, _ => exact ⟨[-1, 0], rfl, by decide⟩,
    C6_amended_no_validation (fun i hi => by
      match i, hi with
      | 0, _ => exact ⟨[0, -1], rfl, by decide⟩
      | 1, _ => exact ⟨[-1, 0], rfl, by decide⟩)⟩

/-- C7: counterexample — on an empty location list all three `solve`
functions crash (the `locations[0]` access raises `IndexError`) instead of
returning a trivial empty tour. -/
theorem C7_counterexample :
    bfs_tsp ([] : List ℕ) (fun _ => none) 5 = some .crash ∧
    ucs_tsp ([] : List ℕ) (fun _ => none) 5 = some .crash ∧
    astar_tsp ([] : List ℕ) (fun _ => none) 5 = some .crash :=
  ⟨rfl, rfl, rfl⟩

/-- C7: amended — on a single location `c` whose self-distance is below
`sys.maxsize`, all three `solve` functions terminate and return the
two-entry sequence `[c, c]` with bottleneck `max w 0` (the self-loop
weight, not the constant `0` the spec promises: `0` only when `w ≤ 0`). -/
theorem C7_amended_degenerate {c : α} {d : α × α → Option Int} {w : Int}
    (hw : d (c, c) = some w) (hlt : w < maxsize) :
    ∃ f₀, ∀ f, f₀ ≤ f →
      bfs_tsp [c] d f = some (.ok (some [c, c], max w 0)) ∧
      ucs_tsp [c] d f = some (.ok (some [c, c], max w 0)) ∧
      astar_tsp [c] d f = some (.ok (some [c, c], max w 0)) := by
  have htot : Total d [c] := total_one_city hw
  have hn : ([c] : List α).Nodup := List.nodup_singleton c
  have hc0 : ([c] : List α).head? = some c := rfl
  have hpm : pathMax d [c, c] = max w 0 := by
    show max ((d (c, c)).getD 0) (pathMax d [c]) = max w 0
    rw [hw]
    rfl
  have hmaxlt : max w 0 < maxsize := max_lt hlt (by decide)
  have hshape : ∀ (q : Option (List α)) (u : Int),
      (∀ T, IsTour [c] T → u ≤ pathMax d T) →
      (u = maxsize ∨ ∃ T, IsTour [c] T ∧ u = pathMax d T) →
      ((q = none ∧ u = maxsize) ∨
        (∃ p, q = some p ∧ IsTour [c] p ∧ u = pathMax d p)) →
      (q, u) = (some [c, c], max w 0) := by
    intro q u hle hcase hres
    have hv : u = max w 0 := by
      rcases hcase with h | ⟨T, hT, hvT⟩
      · have hb := hle [c, c] (one_city_tour_iff.mpr rfl)
        rw [hpm, h] at hb
        exact absurd (lt_of_le_of_lt hb hmaxlt) (lt_irrefl _)
      · rw [one_city_tour_iff.mp hT] at hvT
        rw [hvT, hpm]
    rcases hres with ⟨hnone, hmax⟩ | ⟨p, hp, hTp, -⟩
    · exact absurd (hv.symm.trans hmax) (ne_of_lt hmaxlt)
    · rw [one_city_tour_iff.mp hTp] at hp
      rw [hp, hv]
  obtain ⟨f₁, hf₁⟩ := (bfsAlg [c] d).terminates
    (fun l s r h => bfs_pick_perm h) (bfsAlg_no_crash htot)
    (show (bfsAlg [c] d).W (c, [c], 0) from ⟨wfpath_init hc0, rfl⟩)
    (none, maxsize)
  obtain ⟨f₂, hf₂⟩ := (ucsAlg [c] d).terminates
    (fun l s r h => popMinBy_perm h) (ucsAlg_no_crash htot)
    (show (ucsAlg [c] d).W ((0 : Int), [c]) from wfpath_init hc0)
    (none, maxsize)
  obtain ⟨f₃, hf₃⟩ := (astarAlg [c] d).terminates
    (fun l s r h => popMinBy_perm h) (astarAlg_no_crash htot)
    (show (astarAlg [c] d).W ((0 : Int), [c], (0 : Int)) from wfpath_init hc0)
    (none, maxsize)
  refine ⟨max f₁ (max f₂ f₃), fun f hf => ⟨?_, ?_, ?_⟩⟩
  · obtain ⟨r, hr⟩ := hf₁ f (le_trans (le_max_left _ _) hf)
    obtain ⟨q, u⟩ := r
    have hrun : bfs_tsp [c] d f = some (.ok (q, u)) := by
      rw [bfs_tsp_some hc0]
      exact hr
    have hopt := bfs_opt hn htot hrun
    have hres := (bfsAlg [c] d).result_tour (fun l s r h => bfs_pick_perm h)
      (show (bfsAlg [c] d).W (c, [c], 0) from ⟨wfpath_init hc0, rfl⟩) hr
    rw [hrun, hshape q u hopt.1 hopt.2.1 hres]
  · obtain ⟨r, hr⟩ := hf₂ f
      (le_trans (le_trans (le_max_left _ _) (le_max_right f₁ _)) hf)
    obtain ⟨q, u⟩ := r
    have hrun : ucs_tsp [c] d f = some (.ok (q, u)) := by
      rw [ucs_tsp_some hc0]
      exact hr
    have hopt := ucs_opt hn htot hrun
    have hres := (ucsAlg [c] d).result_tour (fun l s r h => popMinBy_perm h)
      (show (ucsAlg [c] d).W ((0 : Int), [c]) from wfpath_init hc0) hr
    rw [hrun, hshape q u hopt.1 hopt.2.1 hres]
  · obtain ⟨r, hr⟩ := hf₃ f
      (le_trans (le_trans (le_max_right _ _) (le_max_right f₁ _)) hf)
    obtain ⟨q, u⟩ := r
    have hrun : astar_tsp [c] d f = some (.ok (q, u)) := by
      rw [astar_tsp_some hc0]
      exact hr
    have hopt := astar_opt hn htot hrun
    have hres := (astarAlg [c] d).result_tour
      (fun l s r h => popMinBy_perm h)
      (show (astarAlg [c] d).W ((0 : Int), [c], (0 : Int)) from
        wfpath_init hc0) hr
    rw [hrun, hshape q u hopt.1 hopt.2.1 hres]

theorem C7_witness :
    dEx2 (0, 0) = some 0 ∧ ((0 : Int) < maxsize) ∧
    ∃ f₀, ∀ f, f₀ ≤ f →
      bfs_tsp [0] dEx2 f = some (.ok (some [0, 0], max 0 0)) ∧
      ucs_tsp [0] dEx2 f = some (.ok (some [0, 0], max 0 0)) ∧
      astar_tsp [0] dEx2 f = some (.ok (some [0, 0], max 0 0)) :=
  ⟨rfl, by decide, C7_amended_degenerate rfl (by decide)⟩

/-- C8: counterexample — after two expansions from the start on a three-city
table with all off-diagonal weights `1`, the successor `[0, 1, 2]` is
enqueued under priority key `3`, while the sum of its taken edges plus the
heuristic at its current location is `2`: the key accumulates the parent's
popped key (which already contains the parent's own heuristic), not the
bare edge sum `g`. -/
theorem C8_counterexample :
    genStep1 (popMinBy astarLtB) (astar_step [0, 1, 2] dEx3)
        [(0, [0], 0)] (none, maxsize)
      = .next [(2, [0, 1], 1), (2, [0, 2], 1)] (none, maxsize) ∧
    genStep1 (popMinBy astarLtB) (astar_step [0, 1, 2] dEx3)
        [(2, [0, 1], 1), (2, [0, 2], 1)] (none, maxsize)
      = .next [(2, [0, 2], 1), (3, [0, 1, 2], 1)] (none, maxsize) ∧
    gSum dEx3 [0, 1, 2]
      + (heuristicM dEx3 (cand [0, 1, 2] [0, 1]) 2).getD 0 = 2 ∧
    (3 : Int) ≠ 2 :=
  ⟨rfl, rfl, rfl, by decide⟩

/-- C8: amended — every successor the informed strategy enqueues from a
reachable state carries priority key `parent key + edge weight + heuristic`
(the heuristic taken over the parent's candidate set), so ancestor
heuristic contributions accumulate inside the key instead of a bare
`g + h`. -/
theorem C8_amended_priority_key {cities : List α} {d : α × α → Option Int}
    {c0 : α} (hc0 : cities.head? = some c0) :
    ∀ cfg, GReach (popMinBy astarLtB) (astar_step cities d)
        ([(0, [c0], 0)], (none, maxsize)) cfg →
      ∀ cost path mj, (cost, path, mj) ∈ cfg.1 →
        ∀ l, astar_step cities d (cost, path, mj) = .expand l →
          ∀ est p' mj', (est, p', mj') ∈ l →
            ∃ c next w h, path.getLast? = some c ∧
              next ∈ cand cities path ∧ p' = path ++ [next] ∧
              d (c, next) = some w ∧
              heuristicM d (cand cities path) next = some h ∧
              est = cost + w + h ∧ mj' = max mj w := by
  intro cfg hreach cost path mj hmem l hstep est p' mj' hel
  have hwf := (astarAlg cities d).reach_W (fun l s r h => popMinBy_perm h)
    hreach
    (by intro s hs; rw [List.mem_singleton.mp hs]; exact wfpath_init hc0)
    (cost, path, mj) hmem
  obtain ⟨c, hc, -, hexp⟩ := astar_step_expand_inv hwf hstep
  have hl := astar_expand_sound (cand cities path) l hexp
  rw [hl] at hel
  obtain ⟨next, hnext, heq⟩ := List.mem_map.mp hel
  obtain ⟨w, h, hw, hh⟩ :=
    astar_expand_lookups (cand cities path) l hexp next hnext
  injection heq with h1 h23
  injection h23 with h2 h3
  refine ⟨c, next, w, h, hc, hnext, h2.symm, hw, hh, ?_, ?_⟩
  · rw [hw, hh] at h1
    simp only [Option.getD_some] at h1
    exact h1.symm
  · rw [hw] at h3
    simp only [Option.getD_some] at h3
    exact h3.symm

theorem C8_witness :
    astar_step [0, 1, 2] dEx3 (0, [0], 0)
      = .expand [(2, [0, 1], 1), (2, [0, 2], 1)] ∧
    ∃ c next w h, ([0] : List ℕ).getLast? = some c ∧
      next ∈ cand [0, 1, 2] [0] ∧
      ([0, 1] : List ℕ) = [0] ++ [next] ∧ dEx3 (c, next) = some w ∧
      heuristicM dEx3 (cand [0, 1, 2] [0]) next = some h ∧
      (2 : Int) = 0 + w + h ∧ (1 : Int) = max 0 w :=
  ⟨rfl,
    @C8_amended_priority_key ℕ _ [0, 1, 2] dEx3 0 rfl _
      Relation.ReflTransGen.refl 0 [0] 0 (by decide)
      [(2, [0, 1], 1), (2, [0, 2], 1)] (by rfl) 2 [0, 1] 1 (by decide)⟩

/-- C9: counterexample — the first (and only) complete state popped by the
uniform-cost search on the 2-city table with jump weight `2^63` has
bottleneck `2^63`, yet the value returned after frontier exhaustion is
`sys.maxsize = 2^63 - 1`: the initial best is not overwritten because the
popped bottleneck is not strictly smaller, so the returned value is
`min(maxsize, g)`, not the popped bottleneck `g` itself. -/
theorem C9_counterexample :
    ucs_tsp [0, 1] dBig 10 = some (.ok (none, maxsize)) ∧
    ucs_goalTrace [0, 1] dBig 10 = [9223372036854775808] ∧
    (9223372036854775808 : Int) ≠ maxsize :=
  ⟨rfl, rfl, by decide⟩

/-- C9: amended — in the uniform-cost strategy every reachable frontier key
is the state's running bottleneck, every successor's key is at least its
parent's, the popped keys are nondecreasing, and the first complete state
popped has the globally minimal tour bottleneck `g`; the returned value is
`min maxsize g` (equal to `g` only when `g < maxsize`). -/
theorem C9_amended_ucs_order {cities : List α} {d : α × α → Option Int}
    (hn : cities.Nodup) (htot : Total d cities) {fuel : Nat}
    {op : Option (List α)} {v : Int}
    (hrun : ucs_tsp cities d fuel = some (.ok (op, v))) :
    (∀ c0, cities.head? = some c0 →
      ∀ cfg, GReach (popMinBy ucsLtB) (ucs_step cities d)
          ([(0, [c0])], (none, maxsize)) cfg →
        ∀ mj path, (mj, path) ∈ cfg.1 → mj = pathMax d path) ∧
    (∀ (c : α) (path : List α) (mj : Int) (cs : List α)
        (l : List (Int × List α)),
      ucs_expand cities d c path mj cs = some l → ∀ e ∈ l, mj ≤ e.1) ∧
    List.Pairwise (· ≤ ·) (ucs_keyTrace cities d fuel) ∧
    (∀ g gs, ucs_goalTrace cities d fuel = g :: gs →
      (∀ T, IsTour cities T → g ≤ pathMax d T) ∧
      v = min maxsize g ∧ (g < maxsize → v = g)) := by
  rcases hc0m : cities.head? with _ | c0
  · rw [ucs_tsp_none hc0m] at hrun
    simp at hrun
  · refine ⟨?_, ?_, ?_, ?_⟩
    · intro c0' hc0' cfg hreach mj path hmem
      exact ((ucsAlg cities d).reach_W (fun l s r h => popMinBy_perm h)
        hreach
        (by intro s hs; rw [List.mem_singleton.mp hs]
            exact wfpath_init (hc0m.trans hc0')) (mj, path) hmem).bn
    · exact fun c path mj cs l hexp e he => ucs_expand_key_ge cs l hexp e he
    · exact ucs_keyTrace_sorted cities d fuel
    · intro g gs htrace
      rw [ucs_goalTrace_some hc0m] at htrace
      rw [ucs_tsp_some hc0m] at hrun
      have hval : v = (genTrace (popMinBy ucsLtB) (ucs_step cities d) fuel
          [(0, [c0])]).foldl min maxsize :=
        genLoop_val fuel _ _ (op, v) hrun
      have hsorted : List.Pairwise (· ≤ ·) (genTrace (popMinBy ucsLtB)
          (ucs_step cities d) fuel [((0 : Int), [c0])]) :=
        ucs_trace_sorted fuel [((0 : Int), [c0])]
      rw [htrace] at hval hsorted
      have hgmin : ∀ x ∈ g :: gs, g ≤ x := by
        intro x hx
        rcases List.mem_cons.mp hx with rfl | hxm
        · exact le_refl x
        · exact (List.pairwise_cons.mp hsorted).1 x hxm
      have hv : v = min maxsize g := by
        rw [hval, List.foldl_cons]
        exact foldl_min_of_le fun x hx =>
          le_trans (min_le_right maxsize g)
            (hgmin x (List.mem_cons_of_mem g hx))
      refine ⟨?_, hv, fun hltg => by
        rw [hv, min_eq_right (le_of_lt hltg)]⟩
      intro T hTour
      have htr := (ucsAlg cities d).trace_perm
        (fun l s r h => popMinBy_perm h) (fun l hnil => popMinBy_none hnil)
        fuel [(0, [c0])] (none, maxsize) (op, v)
        (by intro s hs; rw [List.mem_singleton.mp hs]
            exact wfpath_init hc0m) hrun
      have hsingle : (([((0 : Int), [c0])]).flatMap fun s =>
          gvF (ucsAlg cities d).step
            (stepsLeft cities ((ucsAlg cities d).pathOf s) + 1) s)
          = gvF (ucsAlg cities d).step
              (stepsLeft cities ((ucsAlg cities d).pathOf (0, [c0])) + 1)
              (0, [c0]) := by
        simp
      rw [hsingle] at htr
      have hThead : T.head? = some c0 := hTour.1.trans hc0m
      have hpre : T = (ucsAlg cities d).pathOf ((0 : Int), [c0]) ++ T.tail := by
        cases T with
        | nil => simp at hThead
        | cons a as =>
          simp only [List.head?_cons, Option.some.injEq] at hThead
          rw [hThead]
          rfl
      have hmem := (ucsAlg cities d).up hn (ucsAlg_no_crash htot) hTour
        T.tail ((0 : Int), [c0]) (wfpath_init hc0m) hpre
      have hmem' : pathMax d T ∈ genTrace (popMinBy ucsLtB)
          (ucs_step cities d) fuel [(0, [c0])] :=
        htr.mem_iff.mpr hmem
      rw [htrace] at hmem'
      exact hgmin _ hmem'

theorem C9_witness :
    ucs_tsp [0, 1] dEx2 20 = some (.ok (some [0, 1, 0], 1)) ∧
    List.Pairwise (· ≤ ·) (ucs_keyTrace [0, 1] dEx2 20) :=
  ⟨rfl, (@C9_amended_ucs_order ℕ _ [0, 1] dEx2 (by decide) dEx2_total 20
    (some [0, 1, 0]) 1 (by rfl)).2.2.1⟩

/-- C10: for every nonempty location list and a table containing an entry
for every ordered pair of locations, none of the three search loops can
fail: the embedded `solve` functions never return the crash marker, whatever
the fuel. -/
theorem C10_no_runtime_failure {cities : List α} {d : α × α → Option Int}
    (hne : cities ≠ []) (htot : Total d cities) :
    ∀ fuel, bfs_tsp cities d fuel ≠ some .crash ∧
      ucs_tsp cities d fuel ≠ some .crash ∧
      astar_tsp cities d fuel ≠ some .crash := by
  obtain ⟨c0, hc0⟩ : ∃ c0, cities.head? = some c0 := by
    cases cities with
    | nil => exact absurd rfl hne
    | cons a as => exact ⟨a, rfl⟩
  intro fuel
  refine ⟨?_, ?_, ?_⟩
  · rw [bfs_tsp_some hc0]
    exact (bfsAlg cities d).no_crash (fun l s r h => bfs_pick_perm h)
      (bfsAlg_no_crash htot) fuel [(c0, [c0], 0)] (none, maxsize)
      (by intro s hs; rw [List.mem_singleton.mp hs]
          exact ⟨wfpath_init hc0, rfl⟩)
  · rw [ucs_tsp_some hc0]
    exact (ucsAlg cities d).no_crash (fun l s r h => popMinBy_perm h)
      (ucsAlg_no_crash htot) fuel [(0, [c0])] (none, maxsize)
      (by intro s hs; rw [List.mem_singleton.mp hs]; exact wfpath_init hc0)
  · rw [astar_tsp_some hc0]
    exact (astarAlg cities d).no_crash (fun l s r h => popMinBy_perm h)
      (astarAlg_no_crash htot) fuel [(0, [c0], 0)] (none, maxsize)
      (by intro s hs; rw [List.mem_singleton.mp hs]; exact wfpath_init hc0)

theorem C10_witness :
    ([0, 1] : List ℕ) ≠ [] ∧ bfs_tsp [0, 1] dEx2 7 ≠ some .crash :=
  ⟨by decide, (C10_no_runtime_failure (by decide) dEx2_total 7).1⟩

end TSP
